import Mathlib

/-!
# rtt_dynamic_reconfigure: `AutoConfig`

A shallow embedding of `rtt_dynamic_reconfigure/src/auto_config.cpp`: the type registry
`PropertyTypeInfo`, the message codec (`propertyToMessage`, `__toMessage__`,
`propertyFromMessage`, `__fromMessage__`), the schema builder (`getParamDescription`,
`getGroupDescription`) and the schema cache (`buildCache`, `__refreshDescription__`).

Conventions of the embedding.

* `int` / `int32_t` values are `Int`, `unsigned int` values are `Nat`; the two conversions
  between them are written out modulo `2^32` (`toInt32`, `toUInt32`).
* `double` and `float` are the two carriers of a `FloatModel`, together with the two
  conversions the C++ code performs implicitly (`widen`, `narrow`) and the `<cfloat>`
  constants.
* A `const RTT::base::PropertyBase*` is a `Property`: name, description and a value whose
  constructor is the dynamic type, so `dynamic_cast<const RTT::Property<T>*>` is a test on
  the constructor.  `RTT::Property<RTT::PropertyBag>` and `RTT::Property<AutoConfig>` are
  different classes and therefore different constructors.
* A C++ reference argument that the callee mutates is an argument and a component of the
  returned value.
-/

namespace RttDynamicReconfigure

/-! ## Machine numbers -/

/-- Conversion `unsigned int → int` (value preserved modulo `2^32`). -/
def toInt32 (u : Nat) : Int :=
  if u % 2 ^ 32 < 2 ^ 31 then ((u % 2 ^ 32 : Nat) : Int) else ((u % 2 ^ 32 : Nat) : Int) - 2 ^ 32

/-- Conversion `int → unsigned int` (value preserved modulo `2^32`). -/
def toUInt32 (i : Int) : Nat := (i % 2 ^ 32).toNat

/-- Constant `INT_MIN` of `<climits>`. -/
def INT_MIN : Int := -(2 ^ 31)

/-- Constant `INT_MAX` of `<climits>`. -/
def INT_MAX : Int := 2 ^ 31 - 1

/-- Constant `UINT_MAX` of `<climits>`. -/
def UINT_MAX : Nat := 2 ^ 32 - 1

/-- The floating-point types of the platform: carriers of `double` and `float`, the implicit
conversions `float → double` and `double → float`, and `DBL_MAX`, `FLT_MAX` and unary minus. -/
structure FloatModel where
  Dbl : Type
  Flt : Type
  widen : Flt → Dbl
  narrow : Dbl → Flt
  DBL_MAX : Dbl
  FLT_MAX : Flt
  negDbl : Dbl → Dbl
  negFlt : Flt → Flt

/-! ## Properties and property bags (`RTT::Property<T>`, `RTT::PropertyBag`) -/

/-- A property: `getName()`, `getDescription()` and the held value. -/
structure Property (V : Type) where
  name : String
  description : String
  value : V

/-- The value held by a property; the constructor is the property's dynamic type
`RTT::Property<T>`. -/
inductive Value (fm : FloatModel) where
  | bool (b : Bool)
  | int (i : Int)
  | uint (u : Nat)
  | str (s : String)
  | double (d : fm.Dbl)
  | float (f : fm.Flt)
  | bag (ps : List (Property (Value fm)))
  | config (ps : List (Property (Value fm)))
  | other (typeName : String)

/-- The properties of a `RTT::PropertyBag` (and of an `AutoConfig`, which derives from it),
in iteration order. -/
abbrev Bag (fm : FloatModel) := List (Property (Value fm))

/-- The six primitive types with a `PropertyTypeInfo` specialisation that the code probes. -/
inductive Prim where
  | bool | int | uint | str | double | float
  deriving DecidableEq, Repr

/-- The probing order of every `||` chain in the file. -/
def primOrder : List Prim := [.bool, .int, .uint, .str, .double, .float]

/-- Whether `dynamic_cast<const RTT::Property<T>*>(pb)` is non-null. -/
def Value.isPrim {fm : FloatModel} : Prim → Value fm → Bool
  | .bool, .bool _ => true
  | .int, .int _ => true
  | .uint, .uint _ => true
  | .str, .str _ => true
  | .double, .double _ => true
  | .float, .float _ => true
  | _, _ => false

/-- Whether `dynamic_cast<RTT::Property<AutoConfig>*>(pb)` is non-null. -/
def Value.isConfig {fm : FloatModel} : Value fm → Bool
  | .config _ => true
  | _ => false

/-- Method `PropertyBag::getProperty(name)`: the first property of that name. -/
def getProperty {fm : FloatModel} (bag : Bag fm) (name : String) : Option (Property (Value fm)) :=
  bag.find? (fun p => p.name == name)

/-- Method `PropertyBag::getPropertyType<T>(name)` for a primitive `T`: the first property of
that name and type. -/
def getPropertyType {fm : FloatModel} (T : Prim) (bag : Bag fm) (name : String) :
    Option (Property (Value fm)) :=
  bag.find? (fun p => p.value.isPrim T && p.name == name)

/-- Method `PropertyBag::getPropertyType<AutoConfig>(name)`. -/
def getPropertyTypeConfig {fm : FloatModel} (bag : Bag fm) (name : String) :
    Option (Property (Value fm)) :=
  bag.find? (fun p => p.value.isConfig && p.name == name)

/-- Method `PropertyBag::ownProperty(p)` for a new, ready property: appended at the end. -/
def ownProperty {fm : FloatModel} (bag : Bag fm) (p : Property (Value fm)) : Bag fm :=
  bag ++ [p]

/-- Assignment through the pointer returned by `getPropertyType<T>(name)`: the first property
of that name and type gets the value, in place. -/
def setPropertyType {fm : FloatModel} (T : Prim) (name : String) (v : Value fm) :
    Bag fm → Bag fm
  | [] => []
  | p :: rest =>
    if p.value.isPrim T && p.name == name then { p with value := v } :: rest
    else p :: setPropertyType T name v rest

/-- Assignment through the pointer returned by `getPropertyType<AutoConfig>(name)`. -/
def setPropertyTypeConfig {fm : FloatModel} (name : String) (v : Value fm) :
    Bag fm → Bag fm
  | [] => []
  | p :: rest =>
    if p.value.isConfig && p.name == name then { p with value := v } :: rest
    else p :: setPropertyTypeConfig name v rest

/-- Call `sample->create()` followed by `set(v)` on the result: a new property with the name
and description of `sample` holding `v` (the value-initialised `T()` that `create()` stores is
overwritten before it can be read). -/
def createSet {fm : FloatModel} (sample : Property (Value fm)) (v : Value fm) :
    Property (Value fm) :=
  { name := sample.name, description := sample.description, value := v }

/-! ## The wire message (`dynamic_reconfigure::Config`) and `ConfigTools` -/

/-- One entry of a wire sequence (`BoolParameter`, `IntParameter`, ...). -/
structure Param (α : Type) where
  name : String
  value : α

/-- The four value sequences of `dynamic_reconfigure::Config`. -/
structure Config (fm : FloatModel) where
  bools : List (Param Bool)
  ints : List (Param Int)
  strs : List (Param String)
  doubles : List (Param fm.Dbl)

/-- The empty message. -/
def Config.empty (fm : FloatModel) : Config fm := ⟨[], [], [], []⟩

/-- Function `ConfigTools::getParameter(vec, name, val)`: the value of the first entry of
that name. -/
def getParameter {α : Type} (vec : List (Param α)) (name : String) : Option α :=
  (vec.find? (fun n => n.name == name)).map (fun n => n.value)

/-- Function `ConfigTools::appendParameter(vec, name, val)`. -/
def appendParameter {α : Type} (vec : List (Param α)) (name : String) (val : α) :
    List (Param α) :=
  vec ++ [⟨name, val⟩]

/-- Whether some entry of the sequence carries the name (the search loops of
`__fromMessage__`). -/
def hasName {α : Type} (vec : List (Param α)) (name : String) : Bool :=
  vec.any (fun n => n.name == name)

/-! ## Encoding: `propertyToMessage`, `__toMessage__` -/

/-- Template `propertyToMessage<T>` for a primitive `T`: on a successful cast the value,
converted to `PropertyTypeInfo<T>::dynamic_reconfigure_type`, is appended under
`_prefix + pb->getName()`. -/
def propertyToMessage {fm : FloatModel} (T : Prim) (msg : Config fm)
    (pb : Property (Value fm)) (pre : String) : Bool × Config fm :=
  match T, pb.value with
  | .bool, .bool b => (true, { msg with bools := appendParameter msg.bools (pre ++ pb.name) b })
  | .int, .int i => (true, { msg with ints := appendParameter msg.ints (pre ++ pb.name) i })
  | .uint, .uint u =>
    (true, { msg with ints := appendParameter msg.ints (pre ++ pb.name) (toInt32 u) })
  | .str, .str s => (true, { msg with strs := appendParameter msg.strs (pre ++ pb.name) s })
  | .double, .double d =>
    (true, { msg with doubles := appendParameter msg.doubles (pre ++ pb.name) d })
  | .float, .float f =>
    (true, { msg with doubles := appendParameter msg.doubles (pre ++ pb.name) (fm.widen f) })
  | _, _ => (false, msg)

/-- A chain `f(T1) || f(T2) || ...` of calls that may change the state `s`: the calls run in
order until the first that returns true. -/
def firstSuccess {σ : Type} (f : Prim → σ → Bool × σ) : List Prim → σ → Bool × σ
  | [], s => (false, s)
  | T :: rest, s =>
    match f T s with
    | (true, s1) => (true, s1)
    | (false, s1) => firstSuccess f rest s1

/-- Specialisation `propertyToMessage<AutoConfig>`, on the name and value of `pb`. -/
def propertyToMessageAutoConfig {fm : FloatModel} (msg : Config fm) (name : String)
    (value : Value fm) (pre : String) : Bool × Config fm :=
  match value with
  | .config ps => loop ps (if name.isEmpty then pre else pre ++ (name ++ "__")) msg true
  | _ => (false, msg)
where
  /-- The `for` loop over `prop->rvalue()`; `result` is the local of that name. -/
  loop : List (Property (Value fm)) → String → Config fm → Bool → Bool × Config fm
    | [], _, msg, result => (result, msg)
    | i :: rest, pre, msg, result =>
      match firstSuccess (fun T m => propertyToMessage T m i pre) primOrder msg with
      | (true, msg1) => loop rest pre msg1 result
      | (false, msg1) =>
        match propertyToMessageAutoConfig msg1 i.name i.value pre with
        | (true, msg2) => loop rest pre msg2 result
        | (false, msg2) => loop rest pre msg2 false

/-- Method `AutoConfig::__toMessage__` of an `AutoConfig` with properties `this` and member
`prefix_`: the bag is wrapped in a property with empty name. -/
def toMessage {fm : FloatModel} (this : Bag fm) (prefix_ : String) (msg : Config fm) :
    Config fm :=
  (propertyToMessageAutoConfig msg "" (.config this) prefix_).2

/-! ## Decoding: `propertyFromMessage`, `__fromMessage__` -/

/-- The lookup `ConfigTools::getParameter(msg, param_name, value)` of `propertyFromMessage<T>`
with `value` of type `PropertyTypeInfo<T>::dynamic_reconfigure_type`, followed by the
conversion to `T` that `prop->set(value)` performs. -/
def wireValue {fm : FloatModel} (T : Prim) (msg : Config fm) (param_name : String) :
    Option (Value fm) :=
  match T with
  | .bool => (getParameter msg.bools param_name).map .bool
  | .int => (getParameter msg.ints param_name).map .int
  | .uint => (getParameter msg.ints param_name).map (fun i => .uint (toUInt32 i))
  | .str => (getParameter msg.strs param_name).map .str
  | .double => (getParameter msg.doubles param_name).map .double
  | .float => (getParameter msg.doubles param_name).map (fun d => .float (fm.narrow d))

/-- Template `propertyFromMessage<T>`; `config` is the bag that is written. -/
def propertyFromMessage {fm : FloatModel} (T : Prim) (msg : Config fm)
    (sample : Property (Value fm)) (config : Bag fm) (param_name : String) : Bool × Bag fm :=
  if !sample.value.isPrim T then (false, config)
  else
    match wireValue T msg param_name with
    | none => (false, config)
    | some value =>
      match getPropertyType T config sample.name with
      | some _ => (true, setPropertyType T sample.name value config)
      | none => (true, ownProperty config (createSet sample value))

/-- The four search loops of `__fromMessage__` that compute `param_found`. -/
def paramFound {fm : FloatModel} (msg : Config fm) (param_name : String) : Bool :=
  hasName msg.bools param_name || hasName msg.ints param_name ||
    hasName msg.strs param_name || hasName msg.doubles param_name

/-- Method `AutoConfig::__fromMessage__(msg, sample, prefix)` where `sample` is the
`AutoConfig` held by the value `sampleValue`; `this` is the bag that is written. -/
def fromMessageValue {fm : FloatModel} (msg : Config fm) (sampleValue : Value fm)
    (this : Bag fm) (pre : String) : Bool × Bag fm :=
  match sampleValue with
  | .config ps => loop ps this pre true
  | _ => (true, this)
where
  /-- The `for` loop over the properties of `sample` that remain; `result` is the local of
  that name. -/
  loop : List (Property (Value fm)) → Bag fm → String → Bool → Bool × Bag fm
    | [], this, _, result => (result, this)
    | i :: rest, this, pre, result =>
      if !paramFound msg (pre ++ i.name) then loop rest this pre result
      else
        match firstSuccess (fun T c => propertyFromMessage T msg i c (pre ++ i.name))
            primOrder this with
        | (true, this1) => loop rest this1 pre result
        | (false, this1) =>
          if i.value.isConfig then
            -- `sub`: the target's nested `AutoConfig` of that name, created empty when absent
            let this2 :=
              match getPropertyTypeConfig this1 i.name with
              | some _ => this1
              | none => ownProperty this1 (createSet i (.config []))
            let subBag : Bag fm :=
              match getPropertyTypeConfig this2 i.name with
              | some ⟨_, _, .config ps⟩ => ps
              | _ => []
            -- `sub->set().__fromMessage__(msg, sample_sub->rvalue(), param_name + "__")`
            let r := fromMessageValue msg i.value subBag ((pre ++ i.name) ++ "__")
            let this3 := setPropertyTypeConfig i.name (.config r.2) this2
            -- `if (!...) result = false;` and then, unconditionally, `result = false;`
            loop rest this3 pre false
          else loop rest this1 pre false

/-- Method `AutoConfig::__fromMessage__(msg, sample, prefix)` on the target `this`. -/
def fromMessage {fm : FloatModel} (this : Bag fm) (msg : Config fm) (sample : Bag fm)
    (pre : String) : Bool × Bag fm :=
  fromMessageValue msg (.config sample) this pre

/-! ## The type registry `PropertyTypeInfo<T>` -/

/-- Function `PropertyTypeInfo<T>::getType()`. -/
def getType : Prim → String
  | .bool => "bool"
  | .int => "int"
  | .uint => "int"
  | .str => "str"
  | .double => "double"
  | .float => "double"

/-- The value stored by `min_prop->set(PropertyTypeInfo<T>::getMin())`: the registry's value
in the return type of `getMin()` (`int` for `unsigned int`, `double` for `float`), converted to
`T` by `set`. -/
def minValue (fm : FloatModel) : Prim → Value fm
  | .bool => .bool false
  | .int => .int INT_MIN
  | .uint => .uint (toUInt32 0)
  | .str => .str ""
  | .double => .double (fm.negDbl fm.DBL_MAX)
  | .float => .float (fm.narrow (fm.widen (fm.negFlt fm.FLT_MAX)))

/-- The value stored by `max_prop->set(PropertyTypeInfo<T>::getMax())`; for `unsigned int`
the registry returns `UINT_MAX` as an `int`. -/
def maxValue (fm : FloatModel) : Prim → Value fm
  | .bool => .bool true
  | .int => .int INT_MAX
  | .uint => .uint (toUInt32 (toInt32 UINT_MAX))
  | .str => .str ""
  | .double => .double fm.DBL_MAX
  | .float => .float (fm.narrow (fm.widen fm.FLT_MAX))

/-! ## The schema (`dynamic_reconfigure::ConfigDescription`) -/

/-- Message `dynamic_reconfigure::ParamDescription` (the fields the builder writes). -/
structure ParamDescription where
  name : String
  type : String
  description : String
  deriving DecidableEq, Repr

/-- Message `dynamic_reconfigure::Group`. -/
structure Group where
  name : String
  type : String
  parent : Int
  id : Int
  parameters : List ParamDescription
  deriving DecidableEq, Repr

/-- The `std::vector<Group>` `config_description.groups`: its elements, the capacity of its
heap buffer and the identity of that buffer (a counter of reallocations). -/
structure GroupVec where
  items : List Group
  capacity : Nat
  buffer : Nat
  deriving DecidableEq, Repr

/-- A `Group&`: the buffer it points into and the position in it. -/
structure GroupRef where
  buffer : Nat
  index : Nat
  deriving DecidableEq, Repr

/-- The `groups` of a `new ConfigDescription`: empty, nothing allocated. -/
def GroupVec.new : GroupVec := ⟨[], 0, 0⟩

/-- Method `std::vector::push_back`: in place while `size() < capacity()`; otherwise the
elements move to a new buffer (of `size() + max(size(), 1)` elements, the libstdc++ policy),
which invalidates every reference into the old one. -/
def GroupVec.push_back (v : GroupVec) (g : Group) : GroupVec :=
  if v.items.length < v.capacity then { v with items := v.items ++ [g] }
  else
    { items := v.items ++ [g]
      capacity := v.items.length + max v.items.length 1
      buffer := v.buffer + 1 }

/-- Method `std::vector::back()`: a reference to the last element. -/
def GroupVec.back (v : GroupVec) : GroupRef := ⟨v.buffer, v.items.length - 1⟩

/-- Read through a `Group&`; `none` when the reference points into a buffer the vector has
left (undefined behaviour). -/
def GroupVec.deref (v : GroupVec) (r : GroupRef) : Option Group :=
  if r.buffer = v.buffer then v.items[r.index]? else none

/-- Write through a `Group&`; `none` when the reference points into a buffer the vector has
left (undefined behaviour). -/
def GroupVec.update (v : GroupVec) (r : GroupRef) (f : Group → Group) : Option GroupVec :=
  match v.deref r with
  | none => none
  | some g => some { v with items := v.items.set r.index (f g) }

/-- The three `AutoConfig&` arguments `dflt`, `min`, `max` of the builder: three objects, or
three references to one object. -/
inductive Targets (fm : FloatModel) where
  | distinct (dflt min max : Bag fm)
  | same (obj : Bag fm)

/-- The bag `dflt` refers to. -/
def Targets.dflt {fm : FloatModel} : Targets fm → Bag fm
  | .distinct d _ _ => d
  | .same o => o

/-- The bag `min` refers to. -/
def Targets.min {fm : FloatModel} : Targets fm → Bag fm
  | .distinct _ m _ => m
  | .same o => o

/-- The bag `max` refers to. -/
def Targets.max {fm : FloatModel} : Targets fm → Bag fm
  | .distinct _ _ x => x
  | .same o => o

/-- A write to the bag `dflt` refers to. -/
def Targets.setDflt {fm : FloatModel} (b : Bag fm) : Targets fm → Targets fm
  | .distinct _ m x => .distinct b m x
  | .same _ => .same b

/-- A write to the bag `min` refers to. -/
def Targets.setMin {fm : FloatModel} (b : Bag fm) : Targets fm → Targets fm
  | .distinct d _ x => .distinct d b x
  | .same _ => .same b

/-- A write to the bag `max` refers to. -/
def Targets.setMax {fm : FloatModel} (b : Bag fm) : Targets fm → Targets fm
  | .distinct d m _ => .distinct d m b
  | .same _ => .same b

/-! ## The schema builder: `getParamDescription`, `getGroupDescription` -/

/-- Whether `dynamic_cast<RTT::Property<RTT::PropertyBag>*>(pb)` is non-null. -/
def Value.isBag {fm : FloatModel} : Value fm → Bool
  | .bag _ => true
  | _ => false

/-- The statement `params.push_back(param)` on the parameter list of a group. -/
def addParam (p : ParamDescription) (g : Group) : Group :=
  { g with parameters := g.parameters ++ [p] }

/-- Template `getParamDescription<T>`. The argument `params` is `group.parameters`, so the
`push_back` is a write through the reference `group` into `cd`. The result is `none` when
that reference is invalid. -/
def getParamDescription {fm : FloatModel} (T : Prim) (pb : Property (Value fm))
    (pre : String) (cd : GroupVec) (group : GroupRef) (t : Targets fm) :
    Option (Bool × GroupVec × Targets fm) :=
  if !pb.value.isPrim T then some (false, cd, t)
  else
    match cd.update group (addParam ⟨pre ++ pb.name, getType T, pb.description⟩) with
    | none => none
    | some cd1 =>
      -- get current value as default
      let t1 :=
        if (getProperty t.dflt pb.name).isNone then
          t.setDflt (ownProperty t.dflt (createSet pb pb.value))
        else t
      -- get minimum/maximum value
      let t2 :=
        if (getProperty t1.min pb.name).isNone then
          t1.setMin (ownProperty t1.min (createSet pb (minValue fm T)))
        else t1
      let t3 :=
        if (getProperty t2.max pb.name).isNone then
          t2.setMax (ownProperty t2.max (createSet pb (maxValue fm T)))
        else t2
      some (true, cd1, t3)

/-- A chain `f(T1) || f(T2) || ...` of calls each of which may have undefined behaviour. -/
def firstSuccessU {σ : Type} (f : Prim → σ → Option (Bool × σ)) :
    List Prim → σ → Option (Bool × σ)
  | [], s => some (false, s)
  | T :: rest, s =>
    match f T s with
    | none => none
    | some (true, s1) => some (true, s1)
    | some (false, s1) => firstSuccessU f rest s1

/-- The statements `sub_x = dflt.getPropertyType<AutoConfig>(name); if (!sub_x)
dflt.ownProperty(sub_x = new RTT::Property<AutoConfig>(name, description, AutoConfig(owner)))`
of `getGroupDescription`, as the resulting content of `dflt`. -/
def ensureSub {fm : FloatModel} (dflt : Bag fm) (sub : Property (Value fm)) : Bag fm :=
  match getPropertyTypeConfig dflt sub.name with
  | some _ => dflt
  | none => ownProperty dflt (createSet sub (.config []))

/-- The `AutoConfig` held by the property `getPropertyType<AutoConfig>(name)` finds. -/
def subConfig {fm : FloatModel} (bag : Bag fm) (name : String) : Bag fm :=
  match getPropertyTypeConfig bag name with
  | some ⟨_, _, .config ps⟩ => ps
  | _ => []

/-- Function `getGroupDescription` where `bag` points to the `PropertyBag` held by
`bagValue`. The result is `none` when the run uses an invalid reference.

The three pointers `sub_dflt`, `sub_min`, `sub_max` are all obtained from `dflt`: they are
the same property, and the recursive call receives its value three times. -/
def getGroupDescription {fm : FloatModel} (bagValue : Value fm) (pre : String)
    (cd : GroupVec) (t : Targets fm) (name type : String) (parent id : Int) :
    Option (GroupVec × Targets fm) :=
  match bagValue with
  | .bag ps =>
    let cd1 := cd.push_back ⟨name, type, parent, id, []⟩
    loop ps pre cd1 t cd1.back id
  | _ => some (cd, t)
where
  /-- The `for` loop over the properties of `bag` that remain; `group` and `id` are the
  locals of those names. -/
  loop : List (Property (Value fm)) → String → GroupVec → Targets fm → GroupRef → Int →
      Option (GroupVec × Targets fm)
    | [], _, cd, t, _, _ => some (cd, t)
    | i :: rest, pre, cd, t, group, id =>
      match firstSuccessU (fun T s => getParamDescription T i pre s.1 group s.2)
          primOrder (cd, t) with
      | none => none
      | some (true, cd1, t1) => loop rest pre cd1 t1 group id
      | some (false, cd1, t1) =>
        if i.value.isBag then
          let d := ensureSub (ensureSub (ensureSub t1.dflt i) i) i
          match cd1.deref group with
          | none => none
          | some g =>
            match getGroupDescription i.value ((pre ++ i.name) ++ "__") cd1
                (.same (subConfig d i.name)) i.name "" g.id (id + 1) with
            | none => none
            | some (cd2, tsub) =>
              loop rest pre cd2
                (t1.setDflt (setPropertyTypeConfig i.name (.config tsub.dflt) d)) group (id + 1)
        else loop rest pre cd1 t1 group id

/-! ## The schema cache: `buildCache`, `__refreshDescription__` -/

/-- Structure `AutoConfig::Cache`; `description_message_` is the group list of the
`ConfigDescription` the pointer refers to (`none`: null pointer). -/
structure Cache (fm : FloatModel) where
  description_message_ : Option (List Group)
  default_ : Bag fm
  min_ : Bag fm
  max_ : Bag fm

/-- The static map `AutoConfig::cache_`, keyed by the server's identity. -/
abbrev CacheMap (fm : FloatModel) := Nat → Option (Cache fm)

/-- A `new Cache()`. -/
def Cache.new (fm : FloatModel) : Cache fm := ⟨none, [], [], []⟩

/-- Method `AutoConfig::buildCache(server, owner)`, run under the exclusive lock;
`properties` is `owner->properties()`. The result is `none` when the builder uses an invalid
reference. -/
def buildCache {fm : FloatModel} (cache_ : CacheMap fm) (server : Nat)
    (properties : Bag fm) : Option (CacheMap fm) :=
  let cache : Cache fm :=
    match cache_ server with
    | some c => c
    | none => Cache.new fm
  match getGroupDescription (.bag properties) "" GroupVec.new
      (.distinct cache.default_ cache.min_ cache.max_) "Default" "" 0 0 with
  | none => none
  | some (cd, t) =>
    some (fun k => if k = server then some ⟨some cd.items, t.dflt, t.min, t.max⟩ else cache_ k)

/-- Method `AutoConfig::__refreshDescription__(server)`; `properties` is
`server->getOwner()->properties()`. -/
def refreshDescription {fm : FloatModel} (cache_ : CacheMap fm) (server : Nat)
    (properties : Bag fm) : Option (CacheMap fm) :=
  buildCache cache_ server properties

/-! ## Reference definitions for the statements below -/

/-- One entry of a wire message together with the sequence it belongs to. -/
inductive WireEntry (fm : FloatModel) where
  | bool (name : String) (b : Bool)
  | int (name : String) (i : Int)
  | str (name : String) (s : String)
  | double (name : String) (d : fm.Dbl)

/-- The name of an entry. -/
def WireEntry.name {fm : FloatModel} : WireEntry fm → String
  | .bool n _ => n
  | .int n _ => n
  | .str n _ => n
  | .double n _ => n

/-- Appending one entry to the sequence it belongs to. -/
def Config.appendEntry {fm : FloatModel} (msg : Config fm) : WireEntry fm → Config fm
  | .bool n b => { msg with bools := msg.bools ++ [⟨n, b⟩] }
  | .int n i => { msg with ints := msg.ints ++ [⟨n, i⟩] }
  | .str n s => { msg with strs := msg.strs ++ [⟨n, s⟩] }
  | .double n d => { msg with doubles := msg.doubles ++ [⟨n, d⟩] }

/-- Appending entries one after the other. -/
def Config.appendEntries {fm : FloatModel} (msg : Config fm) (es : List (WireEntry fm)) :
    Config fm :=
  es.foldl Config.appendEntry msg

/-- The wire entries of a bag in depth-first insertion order: one entry per primitive leaf,
in the sequence of its wire type, with its value, named by the prefix followed by `n__` for
every enclosing nested `AutoConfig` of non-empty name `n` and then the leaf's name. A nested
`AutoConfig` of empty name adds nothing to the prefix; other properties have no entry. The
function is given on the name and value of one property. -/
def leafEntries {fm : FloatModel} (pre name : String) : Value fm → List (WireEntry fm)
  | .bool b => [.bool (pre ++ name) b]
  | .int i => [.int (pre ++ name) i]
  | .uint u => [.int (pre ++ name) (toInt32 u)]
  | .str s => [.str (pre ++ name) s]
  | .double d => [.double (pre ++ name) d]
  | .float f => [.double (pre ++ name) (fm.widen f)]
  | .config ps => go (if name.isEmpty then pre else pre ++ (name ++ "__")) ps
  | .bag _ => []
  | .other _ => []
where
  /-- The entries of the properties of a bag, under the prefix of that bag. -/
  go (pre : String) : List (Property (Value fm)) → List (WireEntry fm)
    | [] => []
    | p :: rest => leafEntries pre p.name p.value ++ go pre rest

/-- The wire entries as the unamended rule gives them: one entry per primitive leaf at any
nesting depth, under nested bags of either class (`PropertyBag` or `AutoConfig`), named by
the prefix, then the ancestor's name plus `__` for each ancestor bag (with no exception for
an empty name), then the leaf name. -/
def leafEntriesUnguarded {fm : FloatModel} (pre name : String) :
    Value fm → List (WireEntry fm)
  | .bool b => [.bool (pre ++ name) b]
  | .int i => [.int (pre ++ name) i]
  | .uint u => [.int (pre ++ name) (toInt32 u)]
  | .str s => [.str (pre ++ name) s]
  | .double d => [.double (pre ++ name) d]
  | .float f => [.double (pre ++ name) (fm.widen f)]
  | .config ps => go (pre ++ (name ++ "__")) ps
  | .bag ps => go (pre ++ (name ++ "__")) ps
  | .other _ => []
where
  /-- The entries of the properties of a bag, under the prefix of that bag. -/
  go (pre : String) : List (Property (Value fm)) → List (WireEntry fm)
    | [] => []
    | p :: rest => leafEntriesUnguarded pre p.name p.value ++ go pre rest

/-- Whether the value is one of the six primitive types. -/
def Value.isLeaf {fm : FloatModel} (v : Value fm) : Bool :=
  primOrder.any (fun T => v.isPrim T)

/-- Whether an `unsigned int` value is in the range of the type. -/
def Value.inRange {fm : FloatModel} : Value fm → Bool
  | .uint u => decide (u < 2 ^ 32)
  | _ => true

/-- A float model for evaluating the definitions: both types are the integers (every
integer-valued number, no rounding), so both conversions are the identity. -/
def intFloats : FloatModel where
  Dbl := Int
  Flt := Int
  widen := id
  narrow := id
  DBL_MAX := (2 ^ 53 - 1) * 2 ^ 971
  FLT_MAX := (2 ^ 24 - 1) * 2 ^ 104
  negDbl := Int.neg
  negFlt := Int.neg

/-- What decoding needs from a message for the leaf `p` under the wire name `key`: some
sequence has an entry of that name, and the lookup for the type of `p` yields the value of
`p`. -/
def Carries {fm : FloatModel} (msg : Config fm) (key : String) (p : Property (Value fm)) :
    Prop :=
  paramFound msg key = true ∧ ∀ T, p.value.isPrim T = true → wireValue T msg key = some p.value

/-- A bag with one leaf of each primitive type. -/
def sampleLeaves : Bag intFloats :=
  [⟨"b", "flag", .bool true⟩, ⟨"i", "count", .int (-5)⟩, ⟨"u", "mask", .uint 4000000000⟩,
   ⟨"s", "label", .str "hi"⟩, ⟨"d", "gain", .double (3 : Int)⟩, ⟨"f", "rate", .float (7 : Int)⟩]

/-- A sample bag shaped `g : x`, with `x` an `int` leaf inside the nested `AutoConfig` `g`. -/
def sampleNested : Bag intFloats := [⟨"g", "", .config [⟨"x", "", .int 0⟩]⟩]

/-- A bag whose only property is a nested `AutoConfig` of empty name holding the leaf `x`. -/
def unnamedNested : Bag intFloats := [⟨"", "", .config [⟨"x", "", .int 1⟩]⟩]

/-- A bag whose only property is a nested `PropertyBag` `g` holding the leaf `x`. -/
def propertyBagNested : Bag intFloats := [⟨"g", "", .bag [⟨"x", "", .int 1⟩]⟩]

/-- The scenario bag: leaf `a : int = 5` and nested bag `g` holding `b : string = "hi"`. -/
def scenarioBag : Bag intFloats := [⟨"a", "", .int 5⟩, ⟨"g", "", .bag [⟨"b", "", .str "hi"⟩]⟩]

/-- A bag in which the leaf `a` comes after the (empty) nested bag `g`. -/
def leafAfterGroup : Bag intFloats := [⟨"g", "", .bag []⟩, ⟨"a", "", .int 5⟩]

/-- A bag with two (empty) nested bags `g` and `k` side by side. -/
def siblingGroups : Bag intFloats := [⟨"g", "", .bag []⟩, ⟨"k", "", .bag []⟩]

/-- A chain of nested bags `a / b / c / x`, where `x` holds the nested bag `y` (which holds
the nested bag `z`) followed by the nested bag `w`. -/
def deepSiblings : Bag intFloats :=
  [⟨"a", "", .bag [⟨"b", "", .bag [⟨"c", "", .bag [⟨"x", "", .bag
    [⟨"y", "", .bag [⟨"z", "", .bag []⟩]⟩, ⟨"w", "", .bag []⟩]⟩]⟩]⟩]⟩]

/-- A bag whose nested bag `g` holds the leaf `b : string = "hi"`. -/
def nestedLeaf : Bag intFloats := [⟨"g", "", .bag [⟨"b", "", .str "hi"⟩]⟩]

/-- A schema build into empty `dflt`, `min`, `max` bags, as `buildCache` runs it for a new
cache entry. -/
def freshBuild {fm : FloatModel} (properties : Bag fm) : Option (GroupVec × Targets fm) :=
  getGroupDescription (.bag properties) "" GroupVec.new (.distinct [] [] []) "Default" "" 0 0

/-- A message that names only the parameter `a`. -/
def partialMessage : Config intFloats := ⟨[], [⟨"a", 1⟩], [], []⟩

/-- A sample bag with the leaves `a`, `b` and `c`. -/
def partialSample : Bag intFloats := [⟨"a", "", .int 0⟩, ⟨"b", "", .int 0⟩, ⟨"c", "", .int 0⟩]

/-- A target bag that holds `b = 9` only. -/
def partialTarget : Bag intFloats := [⟨"b", "", .int 9⟩]

/-- The primitive type of a value, when it has one. -/
def Value.primOf {fm : FloatModel} : Value fm → Option Prim
  | .bool _ => some .bool
  | .int _ => some .int
  | .uint _ => some .uint
  | .str _ => some .str
  | .double _ => some .double
  | .float _ => some .float
  | _ => none

/-- The guarded insertion of the current value into `dflt` by `getParamDescription<T>`. -/
def synthDflt {fm : FloatModel} (t : Targets fm) (pb : Property (Value fm)) : Targets fm :=
  if (getProperty t.dflt pb.name).isNone then
    t.setDflt (ownProperty t.dflt (createSet pb pb.value))
  else t

/-- The guarded insertion of the minimum into `min` by `getParamDescription<T>`. -/
def synthMin {fm : FloatModel} (t : Targets fm) (pb : Property (Value fm)) (T : Prim) :
    Targets fm :=
  if (getProperty t.min pb.name).isNone then
    t.setMin (ownProperty t.min (createSet pb (minValue fm T)))
  else t

/-- The guarded insertion of the maximum into `max` by `getParamDescription<T>`. -/
def synthMax {fm : FloatModel} (t : Targets fm) (pb : Property (Value fm)) (T : Prim) :
    Targets fm :=
  if (getProperty t.max pb.name).isNone then
    t.setMax (ownProperty t.max (createSet pb (maxValue fm T)))
  else t

/-- The three guarded insertions of `getParamDescription<T>` into `dflt`, `min`, `max`. -/
def synthTargets {fm : FloatModel} (t : Targets fm) (pb : Property (Value fm)) (T : Prim) :
    Targets fm :=
  synthMax (synthMin (synthDflt t pb) pb T) pb T

/-- The bag of bounds after one more property: a primitive leaf whose name the bag lacks adds
a property of its name and description holding the bound of its type. -/
def addBound {fm : FloatModel} (bound : Prim → Value fm) (m : Bag fm)
    (p : Property (Value fm)) : Bag fm :=
  match p.value.primOf with
  | some T => if (getProperty m p.name).isNone then ownProperty m (createSet p (bound T)) else m
  | none => m

/-- The natural minimum of each primitive type: `false`, `-2^31`, `0`, the empty string,
`-DBL_MAX`, `-FLT_MAX`. -/
def naturalMin (fm : FloatModel) : Prim → Value fm
  | .bool => .bool false
  | .int => .int (-(2 ^ 31))
  | .uint => .uint 0
  | .str => .str ""
  | .double => .double (fm.negDbl fm.DBL_MAX)
  | .float => .float (fm.negFlt fm.FLT_MAX)

/-- The natural maximum of each primitive type: `true`, `2^31 - 1`, `2^32 - 1`, the empty
string, `DBL_MAX`, `FLT_MAX`. -/
def naturalMax (fm : FloatModel) : Prim → Value fm
  | .bool => .bool true
  | .int => .int (2 ^ 31 - 1)
  | .uint => .uint (2 ^ 32 - 1)
  | .str => .str ""
  | .double => .double fm.DBL_MAX
  | .float => .float fm.FLT_MAX

/-- The owner's bag at the first build: `a : int = 5`. -/
def ownerBefore : Bag intFloats := [⟨"a", "", .int 5⟩]

/-- The owner's bag at the refresh: the value of `a` has changed to 6. -/
def ownerAfter : Bag intFloats := [⟨"a", "", .int 6⟩]

/-- The empty cache map. -/
def emptyCache (fm : FloatModel) : CacheMap fm := fun _ => none

/-- The cache after the first build for server 0 over `ownerBefore`. -/
def cachedOnce : CacheMap intFloats :=
  (buildCache (emptyCache intFloats) 0 ownerBefore).getD (emptyCache intFloats)

/-- The target holds a property of type `T` and name `n` with value `v`, found first. -/
def Holds {fm : FloatModel} (T : Prim) (n : String) (v : Value fm) (bag : Bag fm) : Prop :=
  ∃ q, getPropertyType T bag n = some q ∧ q.value = v

/-- A sample bag whose second property `bad` has a type outside the registry, between the
`int` leaves `a` and `b`. -/
def bestEffortSample : Bag intFloats :=
  [⟨"a", "", .int 0⟩, ⟨"bad", "", .other "std::vector<double>"⟩, ⟨"b", "", .int 0⟩]

/-- A message with `int` entries for `a`, `bad` and `b`. -/
def bestEffortMessage : Config intFloats := ⟨[], [⟨"a", 1⟩, ⟨"bad", 2⟩, ⟨"b", 3⟩], [], []⟩

/-- The bag `B2` is the bag `B` without one property that the encoder does not support
(neither a primitive leaf nor a nested `AutoConfig`), at top level or inside nested
`AutoConfig` bags. -/
inductive EncodeDrop {fm : FloatModel} : Bag fm → Bag fm → Prop where
  | here (u : Property (Value fm)) (rest : Bag fm) :
      u.value.isLeaf = false → u.value.isConfig = false → EncodeDrop (u :: rest) rest
  | later (p : Property (Value fm)) {rest rest2 : Bag fm} :
      EncodeDrop rest rest2 → EncodeDrop (p :: rest) (p :: rest2)
  | inside (n d : String) {ps ps2 : Bag fm} (rest : Bag fm) :
      EncodeDrop ps ps2 → EncodeDrop (⟨n, d, .config ps⟩ :: rest) (⟨n, d, .config ps2⟩ :: rest)

/-- The bag `B2` is the bag `B` without one property that the schema builder does not
support (neither a primitive leaf nor a nested `PropertyBag`), at top level or inside nested
`PropertyBag` bags. -/
inductive BuildDrop {fm : FloatModel} : Bag fm → Bag fm → Prop where
  | here (u : Property (Value fm)) (rest : Bag fm) :
      u.value.isLeaf = false → u.value.isBag = false → BuildDrop (u :: rest) rest
  | later (p : Property (Value fm)) {rest rest2 : Bag fm} :
      BuildDrop rest rest2 → BuildDrop (p :: rest) (p :: rest2)
  | inside (n d : String) {ps ps2 : Bag fm} (rest : Bag fm) :
      BuildDrop ps ps2 → BuildDrop (⟨n, d, .bag ps⟩ :: rest) (⟨n, d, .bag ps2⟩ :: rest)

/-- Whether the characters contain the separator `__` (two consecutive underscores). -/
def hasSep : List Char → Bool
  | c :: d :: rest => (c == '_' && d == '_') || hasSep (d :: rest)
  | _ => false

/-- A well-formed property name: non-empty, without `__`, neither beginning nor ending with
`_`. -/
def goodName (s : String) : Bool :=
  !s.data.isEmpty && !hasSep s.data && !(s.data.head? == some '_') &&
    !(s.data.getLast? == some '_')

/-- Whether, in the bag held by the value and in every bag nested in it, the property names
are pairwise distinct and well-formed. -/
def wellFormedNames {fm : FloatModel} : Value fm → Bool
  | .bag ps => go ps
  | .config ps => go ps
  | _ => true
where
  /-- The same for the properties of one bag. -/
  go : List (Property (Value fm)) → Bool
    | [] => true
    | p :: rest =>
      goodName p.name && !rest.any (fun q => q.name == p.name) && wellFormedNames p.value &&
        go rest

/-- The mangled names of the leaf paths of a property, as character lists: the prefix, then
`n__` for every enclosing nested bag `n`, then the leaf name. Nested bags are the
`PropertyBag` properties when `viaBag` is set (the schema builder's walk) and the
`AutoConfig` properties otherwise (the encoder's walk). -/
def pathNames {fm : FloatModel} (viaBag : Bool) (pre : List Char) (name : String) :
    Value fm → List (List Char)
  | .bool _ => [pre ++ name.data]
  | .int _ => [pre ++ name.data]
  | .uint _ => [pre ++ name.data]
  | .str _ => [pre ++ name.data]
  | .double _ => [pre ++ name.data]
  | .float _ => [pre ++ name.data]
  | .bag ps => if viaBag then go (pre ++ (name.data ++ ['_', '_'])) ps else []
  | .config ps => if viaBag then [] else go (pre ++ (name.data ++ ['_', '_'])) ps
  | .other _ => []
where
  /-- The mangled names of the leaf paths of a bag, under the prefix of that bag. -/
  go (pre : List Char) : List (Property (Value fm)) → List (List Char)
    | [] => []
    | p :: rest => pathNames viaBag pre p.name p.value ++ go pre rest

/-- The first path segment of a mangled name: the characters before the first `__`. -/
def firstSegment : List Char → List Char
  | c :: d :: rest => if (c == '_' && d == '_') then [] else c :: firstSegment (d :: rest)
  | cs => cs

/-- The names of all parameters of all groups of a description, as character lists. -/
def paramNames (cd : GroupVec) : List (List Char) :=
  (cd.items.flatMap (fun g => g.parameters)).map (fun p => p.name.data)

/-- Two nested `AutoConfig` bags `a_ : b` and `a : _b` (names that end or begin with `_`). -/
def collidingConfigs : Bag intFloats :=
  [⟨"a_", "", .config [⟨"b", "", .int 1⟩]⟩, ⟨"a", "", .config [⟨"_b", "", .int 2⟩]⟩]

/-- Two nested `PropertyBag` bags `a_ : b` and `a : _b`, inside the chain of nested bags
`p / q / r / s`. -/
def collidingBags : Bag intFloats :=
  [⟨"p", "", .bag [⟨"q", "", .bag [⟨"r", "", .bag [⟨"s", "", .bag
    [⟨"a_", "", .bag [⟨"b", "", .int 1⟩]⟩, ⟨"a", "", .bag [⟨"_b", "", .int 2⟩]⟩]⟩]⟩]⟩]⟩]

/-- A well-formed bag: leaf `a` and nested `AutoConfig` `g` holding the leaves `a` and `b`. -/
def wellFormedSample : Bag intFloats :=
  [⟨"a", "", .int 5⟩, ⟨"g", "", .config [⟨"a", "", .int 6⟩, ⟨"b", "", .str "hi"⟩]⟩]

/-! ## Lemmas: encoding -/

variable {fm : FloatModel}

theorem firstSuccess_toMessage_leaf (p : Property (Value fm)) (pre : String) (msg : Config fm)
    (h : p.value.isLeaf = true) :
    firstSuccess (fun T m => propertyToMessage T m p pre) primOrder msg
      = (true, msg.appendEntries (leafEntries pre p.name p.value)) := by
  obtain ⟨n, d, v⟩ := p
  cases v <;>
    simp_all [firstSuccess, propertyToMessage, primOrder, Value.isLeaf, Value.isPrim,
      leafEntries, Config.appendEntries, Config.appendEntry, appendParameter]

theorem firstSuccess_toMessage_nonleaf (p : Property (Value fm)) (pre : String) (msg : Config fm)
    (h : p.value.isLeaf = false) :
    firstSuccess (fun T m => propertyToMessage T m p pre) primOrder msg = (false, msg) := by
  obtain ⟨n, d, v⟩ := p
  cases v <;>
    simp_all [firstSuccess, propertyToMessage, primOrder, Value.isLeaf, Value.isPrim]

theorem appendEntries_append (msg : Config fm) (a b : List (WireEntry fm)) :
    msg.appendEntries (a ++ b) = (msg.appendEntries a).appendEntries b := by
  simp [Config.appendEntries, List.foldl_append]

mutual
theorem toMessage_value (msg : Config fm) (name : String) (v : Value fm) (pre : String)
    (h : v.isLeaf = false) :
    (propertyToMessageAutoConfig msg name v pre).2 = msg.appendEntries (leafEntries pre name v) := by
  cases v with
  | config ps =>
    simp only [propertyToMessageAutoConfig, leafEntries]
    exact toMessage_loop ps _ msg true
  | bag ps => simp [propertyToMessageAutoConfig, leafEntries, Config.appendEntries]
  | other t => simp [propertyToMessageAutoConfig, leafEntries, Config.appendEntries]
  | _ => simp [Value.isLeaf, primOrder, Value.isPrim] at h
theorem toMessage_loop (ps : List (Property (Value fm))) (pre : String) (msg : Config fm)
    (result : Bool) :
    (propertyToMessageAutoConfig.loop ps pre msg result).2
      = msg.appendEntries (leafEntries.go pre ps) := by
  cases ps with
  | nil => simp [propertyToMessageAutoConfig.loop, leafEntries.go, Config.appendEntries]
  | cons i rest =>
    rw [propertyToMessageAutoConfig.loop, leafEntries.go, appendEntries_append]
    cases hl : i.value.isLeaf with
    | true =>
      rw [firstSuccess_toMessage_leaf i pre msg hl]
      exact toMessage_loop rest pre _ result
    | false =>
      rw [firstSuccess_toMessage_nonleaf i pre msg hl]
      have hv := toMessage_value msg i.name i.value pre hl
      cases hr : propertyToMessageAutoConfig msg i.name i.value pre with
      | mk ok msg2 =>
        rw [hr] at hv
        simp only at hv
        subst hv
        cases ok <;> simp only [hr] <;> exact toMessage_loop rest pre _ _
end


theorem append_left_cancel_string (p a b : String) (h : p ++ a = p ++ b) : a = b := by
  have h1 := congrArg String.data h
  simp only [String.data_append, List.append_cancel_left_eq] at h1
  exact String.ext h1

theorem toUInt32_toInt32 (u : Nat) (h : u < 2 ^ 32) : toUInt32 (toInt32 u) = u := by
  unfold toUInt32 toInt32
  norm_num at h ⊢
  split <;> omega

theorem getParameter_append_some {α : Type} (vec : List (Param α)) (e : Param α) (key : String)
    (v : α) (h : getParameter vec key = some v) : getParameter (vec ++ [e]) key = some v := by
  unfold getParameter at *
  rw [List.find?_append]
  cases hf : List.find? (fun n => n.name == key) vec with
  | none => simp [hf] at h
  | some x => simpa [hf] using h

theorem getParameter_append_ne {α : Type} (vec : List (Param α)) (e : Param α) (key : String)
    (h : e.name ≠ key) : getParameter (vec ++ [e]) key = getParameter vec key := by
  unfold getParameter
  rw [List.find?_append]
  cases hf : List.find? (fun n => n.name == key) vec with
  | none => simp [h]
  | some x => simp

theorem hasName_append {α : Type} (vec : List (Param α)) (e : Param α) (key : String) :
    hasName (vec ++ [e]) key = (hasName vec key || (e.name == key)) := by
  simp [hasName]

theorem carries_appendEntry (msg : Config fm) (key : String) (p : Property (Value fm))
    (e : WireEntry fm) (h : Carries msg key p) : Carries (msg.appendEntry e) key p := by
  obtain ⟨hf, hw⟩ := h
  constructor
  · cases e <;> simp only [paramFound, Config.appendEntry, hasName_append, Bool.or_eq_true] at hf ⊢ <;> tauto
  · intro T hT
    have := hw T hT
    cases T <;> cases e <;>
      simp only [wireValue, Config.appendEntry, Option.map_eq_some'] at this ⊢ <;>
      first
        | exact this
        | (obtain ⟨a, ha, hb⟩ := this
           exact ⟨a, getParameter_append_some _ _ _ _ ha, hb⟩)

theorem carries_appendEntries (es : List (WireEntry fm)) :
    ∀ (msg : Config fm) (key : String) (p : Property (Value fm)),
      Carries msg key p → Carries (msg.appendEntries es) key p := by
  induction es with
  | nil => intro msg key p h; exact h
  | cons e es ih =>
    intro msg key p h
    exact ih _ key p (carries_appendEntry msg key p e h)


theorem find_none_of_names (this : Bag fm) (name : String) (f : Property (Value fm) → Bool)
    (h : ∀ q ∈ this, q.name ≠ name) :
    this.find? (fun q => f q && q.name == name) = none := by
  rw [List.find?_eq_none]
  intro q hq
  simp [h q hq]

theorem firstSuccess_fromMessage_leaf (msg : Config fm) (p : Property (Value fm))
    (this : Bag fm) (key : String) (hl : p.value.isLeaf = true)
    (hw : ∀ T, p.value.isPrim T = true → wireValue T msg key = some p.value)
    (hn : ∀ q ∈ this, q.name ≠ p.name) :
    firstSuccess (fun T c => propertyFromMessage T msg p c key) primOrder this
      = (true, this ++ [p]) := by
  have hg : ∀ T, getPropertyType T this p.name = none := fun T =>
    find_none_of_names this p.name _ hn
  obtain ⟨n, d, v⟩ := p
  cases v <;>
    simp_all [firstSuccess, propertyFromMessage, primOrder, Value.isLeaf, Value.isPrim,
      ownProperty, createSet]

theorem fromMessage_loop_leaves (msg : Config fm) (pre : String) :
    ∀ (rest this : Bag fm), (∀ p ∈ rest, p.value.isLeaf = true) →
      (rest.map (fun p => p.name)).Nodup →
      (∀ p ∈ rest, ∀ q ∈ this, q.name ≠ p.name) →
      (∀ p ∈ rest, Carries msg (pre ++ p.name) p) →
      ∀ result, fromMessageValue.loop msg rest this pre result = (result, this ++ rest) := by
  intro rest
  induction rest with
  | nil => intro this _ _ _ _ result; simp [fromMessageValue.loop]
  | cons i rest ih =>
    intro this hl hnd hdis hc result
    have hci := hc i (List.mem_cons_self _ _)
    rw [fromMessageValue.loop]
    simp only [hci.1, Bool.not_true, Bool.false_eq_true, if_false]
    rw [firstSuccess_fromMessage_leaf msg i this _ (hl i (List.mem_cons_self _ _)) hci.2
      (hdis i (List.mem_cons_self _ _))]
    simp only
    have hnd2 := List.nodup_cons.mp hnd
    rw [ih (this ++ [i]) (fun p hp => hl p (List.mem_cons_of_mem _ hp)) hnd2.2 ?_
      (fun p hp => hc p (List.mem_cons_of_mem _ hp)) result]
    · simp
    · intro p hp q hq
      rcases List.mem_append.mp hq with hq | hq
      · exact hdis p (List.mem_cons_of_mem _ hp) q hq
      · simp only [List.mem_singleton] at hq
        subst hq
        intro heq
        exact hnd2.1 (List.mem_map.mpr ⟨p, hp, heq.symm⟩)


theorem leafEntries_go_append (pre : String) (a b : List (Property (Value fm))) :
    leafEntries.go pre (a ++ b) = leafEntries.go pre a ++ leafEntries.go pre b := by
  induction a with
  | nil => simp [leafEntries.go]
  | cons x a ih => simp [leafEntries.go, ih]

theorem leafEntries_name_of_leaf (pre name : String) (v : Value fm) (h : v.isLeaf = true) :
    ∀ e ∈ leafEntries pre name v, e.name = pre ++ name := by
  cases v <;> simp_all [leafEntries, WireEntry.name, Value.isLeaf, primOrder, Value.isPrim]

theorem leafEntries_go_names (pre : String) (ps : List (Property (Value fm)))
    (hl : ∀ p ∈ ps, p.value.isLeaf = true) :
    ∀ e ∈ leafEntries.go pre ps, ∃ q ∈ ps, e.name = pre ++ q.name := by
  induction ps with
  | nil => simp [leafEntries.go]
  | cons x ps ih =>
    intro e he
    rw [leafEntries.go, List.mem_append] at he
    rcases he with he | he
    · exact ⟨x, List.mem_cons_self _ _,
        leafEntries_name_of_leaf pre x.name x.value (hl x (List.mem_cons_self _ _)) e he⟩
    · obtain ⟨q, hq, hn⟩ := ih (fun p hp => hl p (List.mem_cons_of_mem _ hp)) e he
      exact ⟨q, List.mem_cons_of_mem _ hq, hn⟩

theorem wireValue_appendEntry_ne (T : Prim) (msg : Config fm) (e : WireEntry fm) (key : String)
    (h : e.name ≠ key) : wireValue T (msg.appendEntry e) key = wireValue T msg key := by
  cases T <;> cases e <;>
    simp only [wireValue, Config.appendEntry, WireEntry.name] at h ⊢ <;>
    rw [getParameter_append_ne _ _ _ h]

theorem wireValue_appendEntries_ne (T : Prim) (key : String) (es : List (WireEntry fm)) :
    ∀ (msg : Config fm), (∀ e ∈ es, e.name ≠ key) →
      wireValue T (msg.appendEntries es) key = wireValue T msg key := by
  induction es with
  | nil => intro msg _; rfl
  | cons e es ih =>
    intro msg h
    show wireValue T ((msg.appendEntry e).appendEntries es) key = _
    rw [ih _ (fun x hx => h x (List.mem_cons_of_mem _ hx)),
      wireValue_appendEntry_ne T msg e key (h e (List.mem_cons_self _ _))]

theorem getParameter_append_self {α : Type} (vec : List (Param α)) (key : String) (v : α)
    (h : getParameter vec key = none) : getParameter (vec ++ [⟨key, v⟩]) key = some v := by
  unfold getParameter at *
  rw [List.find?_append]
  cases hf : List.find? (fun n => n.name == key) vec with
  | none => simp
  | some x => simp [hf] at h

theorem carries_own_entry (hfl : ∀ f : fm.Flt, fm.narrow (fm.widen f) = f) (msg : Config fm)
    (pre : String) (p : Property (Value fm)) (hl : p.value.isLeaf = true)
    (hr : p.value.inRange = true)
    (hnone : ∀ T, wireValue T msg (pre ++ p.name) = none) :
    Carries (msg.appendEntries (leafEntries pre p.name p.value)) (pre ++ p.name) p := by
  obtain ⟨n, d, v⟩ := p
  have hb := hnone .bool
  have hi := hnone .int
  have hs := hnone .str
  have hd := hnone .double
  simp only [wireValue, Option.map_eq_none'] at hb hi hs hd
  refine ⟨?_, ?_⟩
  · cases v <;> simp only [Value.isLeaf, primOrder, Value.isPrim, List.any_cons, List.any_nil,
      Bool.or_false, Bool.or_self, Bool.false_eq_true] at hl <;>
      simp [paramFound, leafEntries, Config.appendEntries, Config.appendEntry, hasName_append]
  · intro T hT
    cases v <;> cases T <;> simp only [Value.isPrim, Bool.false_eq_true] at hT <;>
      simp only [wireValue, leafEntries, Config.appendEntries, Config.appendEntry,
        List.foldl_cons, List.foldl_nil] <;>
      first
        | rw [getParameter_append_self _ _ _ hb]
        | rw [getParameter_append_self _ _ _ hi]
        | rw [getParameter_append_self _ _ _ hs]
        | rw [getParameter_append_self _ _ _ hd]
    all_goals simp_all [Value.inRange, toUInt32_toInt32]

theorem carries_encode (hfl : ∀ f : fm.Flt, fm.narrow (fm.widen f) = f) (pre : String)
    (ps : List (Property (Value fm))) (hl : ∀ p ∈ ps, p.value.isLeaf = true)
    (hnd : (ps.map (fun p => p.name)).Nodup) (hr : ∀ p ∈ ps, p.value.inRange = true)
    (msg : Config fm) (hmsg : ∀ T key, wireValue T msg key = none) :
    ∀ p ∈ ps, Carries (msg.appendEntries (leafEntries.go pre ps)) (pre ++ p.name) p := by
  intro p hp
  obtain ⟨l1, l2, rfl⟩ := List.append_of_mem hp
  rw [leafEntries_go_append, leafEntries.go, appendEntries_append, appendEntries_append]
  apply carries_appendEntries
  apply carries_own_entry hfl _ pre p (hl p hp) (hr p hp)
  intro T
  rw [wireValue_appendEntries_ne, hmsg]
  intro e he
  obtain ⟨q, hq, hn⟩ := leafEntries_go_names pre l1
    (fun x hx => hl x (List.mem_append_left _ hx)) e he
  rw [hn]
  intro heq
  have hqp : q.name = p.name := append_left_cancel_string pre _ _ heq
  rw [List.map_append, List.nodup_append] at hnd
  exact hnd.2.2 (List.mem_map.mpr ⟨q, hq, rfl⟩)
    (List.mem_map.mpr ⟨p, List.mem_cons_self _ _, hqp.symm⟩)

theorem roundTrip_core (hfl : ∀ f : fm.Flt, fm.narrow (fm.widen f) = f) (B : Bag fm)
    (hl : ∀ p ∈ B, p.value.isLeaf = true) (hnd : (B.map (fun p => p.name)).Nodup)
    (hr : ∀ p ∈ B, p.value.inRange = true) :
    fromMessage [] (toMessage B "" (Config.empty fm)) B "" = (true, B) := by
  have henc : toMessage B "" (Config.empty fm)
      = (Config.empty fm).appendEntries (leafEntries.go "" B) := by
    unfold toMessage
    rw [toMessage_value _ _ _ _ (by rfl)]
    rfl
  rw [henc]
  unfold fromMessage fromMessageValue
  rw [fromMessage_loop_leaves _ "" B [] hl hnd (by simp)
    (carries_encode hfl "" B hl hnd hr _ (by intro T key; cases T <;> rfl)) true]
  rfl


theorem getProperty_of_nodup (B : Bag fm) (hnd : (B.map (fun p => p.name)).Nodup) :
    ∀ p ∈ B, getProperty B p.name = some p := by
  induction B with
  | nil => intro p hp; cases hp
  | cons x B ih =>
    intro p hp
    have hnd2 := List.nodup_cons.mp hnd
    unfold getProperty
    rcases List.mem_cons.mp hp with h | h
    · subst h; simp
    · have hne : x.name ≠ p.name := fun heq =>
        hnd2.1 (List.mem_map.mpr ⟨p, h, heq.symm⟩)
      rw [List.find?_cons_of_neg _ (by simpa using hne)]
      exact ih hnd2.2 p h

/-! ## Claims -/

/-- C1: round trip. For a bag `B` of primitive leaves with pairwise distinct names (every
`unsigned int` value below `2^32`, and `float → double → float` the identity), encoding `B`
into the empty message with empty prefix and decoding that message with sample `B` into the
empty target returns `true`, and the target then is `B` itself: for every leaf of `B` it
holds the property of that name, type and value. -/
theorem roundTrip_primitive_bag (fm : FloatModel)
    (hfl : ∀ f : fm.Flt, fm.narrow (fm.widen f) = f) (B : Bag fm)
    (hl : ∀ p ∈ B, p.value.isLeaf = true) (hnd : (B.map (fun p => p.name)).Nodup)
    (hr : ∀ p ∈ B, p.value.inRange = true) :
    (fromMessage [] (toMessage B "" (Config.empty fm)) B "").1 = true ∧
      (fromMessage [] (toMessage B "" (Config.empty fm)) B "").2 = B ∧
      ∀ p ∈ B, getProperty (fromMessage [] (toMessage B "" (Config.empty fm)) B "").2 p.name
        = some p := by
  rw [roundTrip_core hfl B hl hnd hr]
  exact ⟨rfl, rfl, getProperty_of_nodup B hnd⟩

/-- C1, instance: the six-leaf bag `sampleLeaves` survives the round trip. -/
theorem roundTrip_primitive_bag_witness :
    (fromMessage [] (toMessage sampleLeaves "" (Config.empty intFloats)) sampleLeaves "").1
      = true :=
  (roundTrip_primitive_bag intFloats (fun _ => rfl) sampleLeaves (by decide) (by decide)
    (by decide)).1

/-- C2: decoding the message with the single entry `g__x = 7` against the sample `g : x`
into the empty target leaves the target empty (and returns `true`): the nested bag `g` is
looked up in the message under its own name `g`, is not found, and is skipped. -/
theorem nested_decode_skips_group :
    fromMessage [] (⟨[], [⟨"g__x", 7⟩], [], []⟩ : Config intFloats) sampleNested ""
      = (true, []) := by
  rfl

/-- C3, as amended: for every bag and prefix, encoding appends to the message exactly the
entries `leafEntries.go` lists, in that order: one per primitive leaf at any depth of nested
`AutoConfig` properties, in the sequence of its wire type, with its value, named by the
prefix, `n__` for each enclosing nested bag of non-empty name `n`, and the leaf name. An
enclosing bag of empty name adds nothing to the name, and a property of any other class,
a `PropertyBag` included, is passed over together with what it holds. -/
theorem encode_appends_leafEntries (fm : FloatModel) (this : Bag fm) (prefix_ : String)
    (msg : Config fm) :
    toMessage this prefix_ msg = msg.appendEntries (leafEntries.go prefix_ this) := by
  unfold toMessage
  rw [toMessage_value _ _ _ _ (by rfl)]
  rfl

/-- C3, counterexample to the unamended rule, one bag for each of the two changes: for
`unnamedNested` the encoder emits the leaf under the name `x`, where the rule gives `__x`;
for `propertyBagNested` the encoder emits nothing, where the rule gives the entry `g__x`. -/
theorem encode_claimed_entries_counterexample :
    toMessage unnamedNested "" (Config.empty intFloats)
        ≠ (Config.empty intFloats).appendEntries (leafEntriesUnguarded.go "" unnamedNested) ∧
      toMessage propertyBagNested "" (Config.empty intFloats)
        ≠ (Config.empty intFloats).appendEntries
          (leafEntriesUnguarded.go "" propertyBagNested) := by
  constructor
  · intro h
    exact absurd (congrArg (fun m => hasName m.ints "x") h) (by decide)
  · intro h
    exact absurd (congrArg (fun m => hasName m.ints "g__x") h) (by decide)

/-- C4: the scenario bag gives the two groups the claim lists (root `Default` with parameter
`a(int)`, then `g` with parameter `g__b(str)`), but for the bag `leafAfterGroup` the build has
no defined result: the push of the group for `g` moves the vector's elements, and the
parameter of the following leaf `a` is then written through the reference to the root group
that was taken before the move. -/
theorem build_leaf_after_group_undefined :
    (freshBuild scenarioBag).map (fun r => r.1.items)
        = some [⟨"Default", "", 0, 0, [⟨"a", "int", ""⟩]⟩, ⟨"g", "", 0, 1, [⟨"g__b", "str", ""⟩]⟩] ∧
      (freshBuild leafAfterGroup).isNone = true := by
  constructor <;> rfl

/-- C5: in the build of `deepSiblings` the groups `z` and `w` both carry id 6: the counter is
a by-value argument, so `x` does not see the increment made inside `y`. -/
theorem build_reuses_group_id :
    (freshBuild deepSiblings).map (fun r => r.1.items.map (fun g => (g.name, g.id)))
      = some [("Default", 0), ("a", 1), ("b", 2), ("c", 3), ("x", 4), ("y", 5), ("z", 6),
          ("w", 6)] := by
  decide!

/-- C6: after the build of `nestedLeaf` from empty bags the defaults hold `g / b = "hi"`, and
the minima and maxima bags are empty: they hold nothing at the path `g / b`. -/
theorem build_nested_leaf_no_bounds :
    (freshBuild nestedLeaf).map (fun r => (r.2.dflt, r.2.min, r.2.max))
      = some ([⟨"g", "", .config [⟨"b", "", .str "hi"⟩]⟩], [], []) := by
  rfl

/-- C7: the message holds entries named `g` and `g__x`; against the sample `g : x` the nested
bag `g` is matched, its recursive decode returns `true` and writes `x = 7`, and the outer
decode returns `false`. -/
theorem decode_nested_success_reports_failure :
    fromMessage [] (⟨[], [⟨"g", 1⟩, ⟨"g__x", 7⟩], [], []⟩ : Config intFloats) [⟨"x", "", .int 0⟩]
        "g__" = (true, [⟨"x", "", .int 7⟩]) ∧
      fromMessage [] (⟨[], [⟨"g", 1⟩, ⟨"g__x", 7⟩], [], []⟩ : Config intFloats) sampleNested ""
        = (false, [⟨"g", "", .config [⟨"x", "", .int 7⟩]⟩]) := by
  constructor <;> rfl


/-! ## Lemmas: decoding leaves other names alone -/

theorem filter_setPropertyType_ne (T : Prim) (n name : String) (v : Value fm) (hne : n ≠ name) :
    ∀ bag : Bag fm, (setPropertyType T n v bag).filter (fun q => q.name == name)
      = bag.filter (fun q => q.name == name) := by
  intro bag
  induction bag with
  | nil => rfl
  | cons p rest ih =>
    unfold setPropertyType
    split
    · rename_i h
      simp only [Bool.and_eq_true, beq_iff_eq] at h
      have hp : ¬ (p.name = name) := fun e => hne (h.2 ▸ e)
      simp [List.filter_cons, hp]
    · simp only [List.filter_cons, ih]

theorem filter_setPropertyTypeConfig_ne (n name : String) (v : Value fm) (hne : n ≠ name) :
    ∀ bag : Bag fm, (setPropertyTypeConfig n v bag).filter (fun q => q.name == name)
      = bag.filter (fun q => q.name == name) := by
  intro bag
  induction bag with
  | nil => rfl
  | cons p rest ih =>
    unfold setPropertyTypeConfig
    split
    · rename_i h
      simp only [Bool.and_eq_true, beq_iff_eq] at h
      have hp : ¬ (p.name = name) := fun e => hne (h.2 ▸ e)
      simp [List.filter_cons, hp]
    · simp only [List.filter_cons, ih]

theorem filter_ownProperty_ne (bag : Bag fm) (p : Property (Value fm)) (name : String)
    (hne : p.name ≠ name) :
    (ownProperty bag p).filter (fun q => q.name == name) = bag.filter (fun q => q.name == name) := by
  simp [ownProperty, List.filter_append, List.filter_cons, hne]

theorem filter_propertyFromMessage_ne (T : Prim) (msg : Config fm) (i : Property (Value fm))
    (config : Bag fm) (key name : String) (hne : i.name ≠ name) :
    (propertyFromMessage T msg i config key).2.filter (fun q => q.name == name)
      = config.filter (fun q => q.name == name) := by
  unfold propertyFromMessage
  split
  · rfl
  · split
    · rfl
    · split
      · exact filter_setPropertyType_ne T i.name name _ hne config
      · exact filter_ownProperty_ne config _ name hne

theorem filter_firstSuccess_fromMessage_ne (msg : Config fm) (i : Property (Value fm))
    (key name : String) (hne : i.name ≠ name) (Ts : List Prim) :
    ∀ config : Bag fm,
      (firstSuccess (fun T c => propertyFromMessage T msg i c key) Ts config).2.filter
          (fun q => q.name == name)
        = config.filter (fun q => q.name == name) := by
  induction Ts with
  | nil => intro config; rfl
  | cons T Ts ih =>
    intro config
    unfold firstSuccess
    have h1 := filter_propertyFromMessage_ne T msg i config key name hne
    cases hr : propertyFromMessage T msg i config key with
    | mk ok c1 =>
      rw [hr] at h1
      cases ok
      · simp only
        rw [ih c1]; exact h1
      · exact h1

theorem filter_fromMessage_loop (msg : Config fm) (pre name : String)
    (hnf : paramFound msg (pre ++ name) = false) :
    ∀ (sample this : Bag fm) (result : Bool),
      (fromMessageValue.loop msg sample this pre result).2.filter (fun q => q.name == name)
        = this.filter (fun q => q.name == name) := by
  intro sample
  induction sample with
  | nil => intro this result; rfl
  | cons i rest ih =>
    intro this result
    rw [fromMessageValue.loop]
    cases hf : paramFound msg (pre ++ i.name) with
    | false => simp only [Bool.not_false, if_true]; exact ih this result
    | true =>
      have hne : i.name ≠ name := by
        intro e; rw [e, hnf] at hf; cases hf
      simp only [Bool.not_true, Bool.false_eq_true, if_false]
      have h1 := filter_firstSuccess_fromMessage_ne msg i (pre ++ i.name) name hne primOrder this
      cases hr : firstSuccess (fun T c => propertyFromMessage T msg i c (pre ++ i.name))
          primOrder this with
      | mk ok this1 =>
        rw [hr] at h1
        simp only at h1
        cases ok
        · simp only
          split
          · rw [ih, filter_setPropertyTypeConfig_ne i.name name _ hne]
            split
            · exact h1
            · rw [filter_ownProperty_ne _ _ name (by exact hne)]; exact h1
          · rw [ih]; exact h1
        · simp only
          rw [ih]; exact h1


/-- C8: partial update. For every message, sample, target and prefix, and every name whose
mangled form `prefix + name` occurs in none of the four message sequences, the decode leaves
the target's properties of that name as they were: the same properties with the same types
and values in the same order (none when there was none), and the lookup by that name gives
what it gave before. -/
theorem decode_keeps_properties_absent_from_message (fm : FloatModel) (msg : Config fm)
    (sample this : Bag fm) (pre name : String)
    (hnf : paramFound msg (pre ++ name) = false) :
    (fromMessage this msg sample pre).2.filter (fun q => q.name == name)
        = this.filter (fun q => q.name == name) ∧
      getProperty (fromMessage this msg sample pre).2 name = getProperty this name := by
  have h : (fromMessage this msg sample pre).2.filter (fun q => q.name == name)
      = this.filter (fun q => q.name == name) :=
    filter_fromMessage_loop msg pre name hnf sample this true
  refine ⟨h, ?_⟩
  unfold getProperty
  rw [← List.filter_head?, ← List.filter_head?, h]

/-- C8, instance: the message names only `a`; the target's `b = 9` stays, and `c`, which the
sample has and the target lacks, is not created. -/
theorem decode_keeps_properties_absent_from_message_witness :
    getProperty (fromMessage partialTarget partialMessage partialSample "").2 "b"
        = getProperty partialTarget "b" ∧
      getProperty (fromMessage partialTarget partialMessage partialSample "").2 "c"
        = getProperty partialTarget "c" :=
  ⟨(decode_keeps_properties_absent_from_message intFloats partialMessage partialSample
      partialTarget "" "b" (by decide)).2,
    (decode_keeps_properties_absent_from_message intFloats partialMessage partialSample
      partialTarget "" "c" (by decide)).2⟩



/-! ## Lemmas: the schema builder -/

theorem firstSuccessU_getParamDescription (i : Property (Value fm)) (pre : String)
    (cd : GroupVec) (group : GroupRef) (t : Targets fm) :
    firstSuccessU (fun T s => getParamDescription T i pre s.1 group s.2) primOrder (cd, t)
      = match i.value.primOf with
        | none => some (false, cd, t)
        | some T =>
          match cd.update group (addParam ⟨pre ++ i.name, getType T, i.description⟩) with
          | none => none
          | some cd1 => some (true, cd1, synthTargets t i T) := by
  obtain ⟨n, d, v⟩ := i
  cases v <;> simp only [firstSuccessU, primOrder, getParamDescription, Value.isPrim,
      Value.primOf, Bool.not_true, Bool.not_false, Bool.false_eq_true, if_false, if_true] <;>
    first
      | rfl
      | (cases cd.update group _ <;> rfl)

theorem loop_cons (i : Property (Value fm)) (rest : List (Property (Value fm)))
    (pre : String) (cd : GroupVec) (t : Targets fm) (group : GroupRef) (id : Int) :
    getGroupDescription.loop (i :: rest) pre cd t group id
      = match i.value.primOf with
        | some T =>
          match cd.update group (addParam ⟨pre ++ i.name, getType T, i.description⟩) with
          | none => none
          | some cd1 => getGroupDescription.loop rest pre cd1 (synthTargets t i T) group id
        | none =>
          if i.value.isBag then
            match cd.deref group with
            | none => none
            | some g =>
              match getGroupDescription i.value ((pre ++ i.name) ++ "__") cd
                  (.same (subConfig (ensureSub (ensureSub (ensureSub t.dflt i) i) i) i.name))
                  i.name "" g.id (id + 1) with
              | none => none
              | some (cd2, tsub) =>
                getGroupDescription.loop rest pre cd2
                  (t.setDflt (setPropertyTypeConfig i.name (.config tsub.dflt)
                    (ensureSub (ensureSub (ensureSub t.dflt i) i) i))) group (id + 1)
          else getGroupDescription.loop rest pre cd t group id := by
  rw [getGroupDescription.loop, firstSuccessU_getParamDescription]
  cases i.value.primOf with
  | none => rfl
  | some T =>
    simp only
    cases cd.update group _ <;> rfl


mutual
theorem build_groups_indep_value (v : Value fm) (pre : String) (cd : GroupVec)
    (t t2 : Targets fm) (name type : String) (parent id : Int) :
    (getGroupDescription v pre cd t name type parent id).map Prod.fst
      = (getGroupDescription v pre cd t2 name type parent id).map Prod.fst := by
  cases v with
  | bag ps =>
    simp only [getGroupDescription]
    exact build_groups_indep_loop ps pre _ t t2 _ id
  | _ => rfl
theorem build_groups_indep_loop (ps : List (Property (Value fm))) (pre : String)
    (cd : GroupVec) (t t2 : Targets fm) (group : GroupRef) (id : Int) :
    (getGroupDescription.loop ps pre cd t group id).map Prod.fst
      = (getGroupDescription.loop ps pre cd t2 group id).map Prod.fst := by
  cases ps with
  | nil => rfl
  | cons i rest =>
    rw [loop_cons, loop_cons]
    cases i.value.primOf with
    | some T =>
      simp only
      cases cd.update group _ with
      | none => rfl
      | some cd1 => exact build_groups_indep_loop rest pre cd1 _ _ group id
    | none =>
      simp only
      cases i.value.isBag with
      | false => exact build_groups_indep_loop rest pre cd t t2 group id
      | true =>
        simp only [if_true]
        cases cd.deref group with
        | none => rfl
        | some g =>
          simp only
          have hv := build_groups_indep_value i.value ((pre ++ i.name) ++ "__") cd
            (.same (subConfig (ensureSub (ensureSub (ensureSub t.dflt i) i) i) i.name))
            (.same (subConfig (ensureSub (ensureSub (ensureSub t2.dflt i) i) i) i.name))
            i.name "" g.id (id + 1)
          revert hv
          cases getGroupDescription i.value ((pre ++ i.name) ++ "__") cd
            (.same (subConfig (ensureSub (ensureSub (ensureSub t.dflt i) i) i) i.name))
            i.name "" g.id (id + 1) with
          | none =>
            cases getGroupDescription i.value ((pre ++ i.name) ++ "__") cd
              (.same (subConfig (ensureSub (ensureSub (ensureSub t2.dflt i) i) i) i.name))
              i.name "" g.id (id + 1) with
            | none => intro _; rfl
            | some r2 => intro hv; simp at hv
          | some r1 =>
            cases getGroupDescription i.value ((pre ++ i.name) ++ "__") cd
              (.same (subConfig (ensureSub (ensureSub (ensureSub t2.dflt i) i) i) i.name))
              i.name "" g.id (id + 1) with
            | none => intro hv; simp at hv
            | some r2 =>
              intro hv
              obtain ⟨c1, s1⟩ := r1
              obtain ⟨c2, s2⟩ := r2
              simp only [Option.map_some', Option.some.injEq] at hv
              subst hv
              exact build_groups_indep_loop rest pre c1 _ _ group (id + 1)
end


theorem primOf_of_isPrim (v : Value fm) (T : Prim) (h : v.isPrim T = true) :
    v.primOf = some T := by
  cases v <;> cases T <;> simp_all [Value.isPrim, Value.primOf]

theorem synthTargets_distinct (d m x : Bag fm) (i : Property (Value fm)) (T : Prim)
    (hT : i.value.primOf = some T) :
    ∃ d2, synthTargets (.distinct d m x) i T
      = .distinct d2 (addBound (minValue fm) m i) (addBound (maxValue fm) x i) := by
  unfold synthTargets synthMax synthMin synthDflt addBound
  simp only [hT, Targets.dflt, Targets.min, Targets.max]
  by_cases h1 : (getProperty d i.name).isNone = true <;>
    by_cases h2 : (getProperty m i.name).isNone = true <;>
    by_cases h3 : (getProperty x i.name).isNone = true <;>
    simp [h1, h2, h3, Targets.setDflt, Targets.setMin, Targets.setMax, Targets.min, Targets.max]

theorem loop_bounds (ps : List (Property (Value fm))) :
    ∀ (pre : String) (cd : GroupVec) (d m x : Bag fm) (group : GroupRef) (id : Int)
      (r : GroupVec × Targets fm),
      getGroupDescription.loop ps pre cd (.distinct d m x) group id = some r →
      ∃ d2, r.2 = .distinct d2 (ps.foldl (addBound (minValue fm)) m)
        (ps.foldl (addBound (maxValue fm)) x) := by
  induction ps with
  | nil =>
    intro pre cd d m x group id r h
    simp only [getGroupDescription.loop, Option.some.injEq] at h
    subst h
    exact ⟨d, rfl⟩
  | cons i rest ih =>
    intro pre cd d m x group id r h
    rw [loop_cons] at h
    simp only [List.foldl_cons]
    cases hT : i.value.primOf with
    | some T =>
      rw [hT] at h
      simp only at h
      cases hu : cd.update group (addParam ⟨pre ++ i.name, getType T, i.description⟩) with
      | none => rw [hu] at h; cases h
      | some cd1 =>
        rw [hu] at h
        obtain ⟨d2, hd⟩ := synthTargets_distinct d m x i T hT
        simp only [hd] at h
        exact ih pre cd1 d2 _ _ group id r h
    | none =>
      rw [hT] at h
      have hm : ∀ (bound : Prim → Value fm) (b : Bag fm), addBound bound b i = b := by
        intro bound b; simp [addBound, hT]
      rw [hm, hm]
      simp only at h
      cases hb : i.value.isBag with
      | false =>
        rw [hb] at h
        exact ih pre cd d m x group id r h
      | true =>
        rw [hb] at h
        simp only [if_true] at h
        cases hg : cd.deref group with
        | none => rw [hg] at h; cases h
        | some g =>
          rw [hg] at h
          simp only at h
          cases hs : getGroupDescription i.value ((pre ++ i.name) ++ "__") cd
              (.same (subConfig (ensureSub (ensureSub (ensureSub
                (Targets.distinct d m x).dflt i) i) i) i.name)) i.name "" g.id (id + 1) with
          | none => rw [hs] at h; cases h
          | some rs =>
            rw [hs] at h
            obtain ⟨cd2, tsub⟩ := rs
            exact ih pre cd2 _ m x group (id + 1) r h


theorem getProperty_append_some (b c : Bag fm) (n : String) (q : Property (Value fm))
    (h : getProperty b n = some q) : getProperty (b ++ c) n = some q := by
  unfold getProperty at *
  rw [List.find?_append, h]
  rfl

theorem getProperty_append_none (b : Bag fm) (p : Property (Value fm)) (n : String)
    (h : getProperty b n = none) :
    getProperty (b ++ [p]) n = if p.name = n then some p else none := by
  unfold getProperty at *
  rw [List.find?_append, h]
  by_cases hp : p.name = n <;> simp [hp]

theorem addBound_keeps (bound : Prim → Value fm) (m : Bag fm) (p : Property (Value fm))
    (n : String) (q : Property (Value fm)) (h : getProperty m n = some q) :
    getProperty (addBound bound m p) n = some q := by
  unfold addBound
  split
  · split
    · exact getProperty_append_some m _ n q h
    · exact h
  · exact h

theorem foldl_addBound_keeps (bound : Prim → Value fm) (ps : List (Property (Value fm)))
    (n : String) (q : Property (Value fm)) :
    ∀ m : Bag fm, getProperty m n = some q →
      getProperty (ps.foldl (addBound bound) m) n = some q := by
  induction ps with
  | nil => intro m h; exact h
  | cons x ps ih => intro m h; exact ih _ (addBound_keeps bound m x n q h)

theorem addBound_none (bound : Prim → Value fm) (m : Bag fm) (p : Property (Value fm))
    (n : String) (h : getProperty m n = none) (hne : p.name ≠ n) :
    getProperty (addBound bound m p) n = none := by
  unfold addBound
  split
  · split
    · rw [ownProperty, getProperty_append_none m _ n h]
      simp [createSet, hne]
    · exact h
  · exact h

theorem foldl_addBound_leaf (bound : Prim → Value fm) (ps : List (Property (Value fm)))
    (hnd : (ps.map (fun p => p.name)).Nodup) :
    ∀ (m : Bag fm), (∀ q ∈ ps, getProperty m q.name = none) →
      ∀ p ∈ ps, ∀ T, p.value.primOf = some T →
        getProperty (ps.foldl (addBound bound) m) p.name
          = some ⟨p.name, p.description, bound T⟩ := by
  induction ps with
  | nil => intro m _ p hp; cases hp
  | cons x ps ih =>
    intro m hm p hp T hT
    have hnd2 := List.nodup_cons.mp hnd
    rw [List.foldl_cons]
    rcases List.mem_cons.mp hp with h | h
    · subst h
      apply foldl_addBound_keeps
      have h0 := hm p (List.mem_cons_self _ _)
      unfold addBound
      simp only [hT, h0, Option.isNone_none, if_true]
      rw [ownProperty, getProperty_append_none m _ _ h0]
      simp [createSet]
    · apply ih hnd2.2 _ _ p h T hT
      intro q hq
      apply addBound_none bound m x q.name (hm q (List.mem_cons_of_mem _ hq))
      intro heq
      exact hnd2.1 (List.mem_map.mpr ⟨q, hq, heq.symm⟩)

theorem foldl_addBound_mem (bound : Prim → Value fm) (ps : List (Property (Value fm))) :
    ∀ (m : Bag fm), ∀ q ∈ ps.foldl (addBound bound) m,
      q ∈ m ∨ ∃ p ∈ ps, ∃ T, p.value.isPrim T = true ∧
        q = ⟨p.name, p.description, bound T⟩ := by
  induction ps with
  | nil => intro m q hq; exact Or.inl hq
  | cons x ps ih =>
    intro m q hq
    rw [List.foldl_cons] at hq
    rcases ih _ q hq with h | ⟨p, hp, T, hT, he⟩
    · unfold addBound at h
      cases hx : x.value.primOf with
      | none => rw [hx] at h; exact Or.inl h
      | some T =>
        rw [hx] at h
        simp only at h
        split at h
        · rcases List.mem_append.mp h with h2 | h2
          · exact Or.inl h2
          · simp only [List.mem_singleton] at h2
            refine Or.inr ⟨x, List.mem_cons_self _ _, T, ?_, h2⟩
            revert hx
            cases x.value <;> cases T <;> simp [Value.primOf, Value.isPrim]
        · exact Or.inl h
    · exact Or.inr ⟨p, List.mem_cons_of_mem _ hp, T, hT, he⟩

theorem minValue_natural (hfl : ∀ f : fm.Flt, fm.narrow (fm.widen f) = f) (T : Prim) :
    minValue fm T = naturalMin fm T := by
  cases T <;> simp [minValue, naturalMin, INT_MIN, toUInt32, hfl]

theorem maxValue_natural (hfl : ∀ f : fm.Flt, fm.narrow (fm.widen f) = f) (T : Prim) :
    maxValue fm T = naturalMax fm T := by
  cases T <;> simp [maxValue, naturalMax, INT_MAX, hfl]
  rw [toUInt32_toInt32 _ (by decide)]
  rfl

theorem freshBuild_bounds (B : Bag fm) (r : GroupVec × Targets fm)
    (h : freshBuild B = some r) :
    r.2.min = B.foldl (addBound (minValue fm)) [] ∧
      r.2.max = B.foldl (addBound (maxValue fm)) [] := by
  unfold freshBuild at h
  simp only [getGroupDescription] at h
  obtain ⟨d2, hd⟩ := loop_bounds B _ _ _ _ _ _ _ r h
  rw [hd]
  exact ⟨rfl, rfl⟩


theorem dflt_setDflt (t : Targets fm) (b : Bag fm) : (t.setDflt b).dflt = b := by
  cases t <;> rfl

theorem synthDflt_keeps (t : Targets fm) (pb : Property (Value fm)) (n : String)
    (q : Property (Value fm)) (h : getProperty t.dflt n = some q) :
    getProperty (synthDflt t pb).dflt n = some q := by
  unfold synthDflt
  split
  · rw [dflt_setDflt]; exact getProperty_append_some _ _ n q h
  · exact h

theorem synthMin_keeps (t : Targets fm) (pb : Property (Value fm)) (T : Prim) (n : String)
    (q : Property (Value fm)) (h : getProperty t.dflt n = some q) :
    getProperty (synthMin t pb T).dflt n = some q := by
  unfold synthMin
  split
  · cases t with
    | distinct d m x => exact h
    | same o => exact getProperty_append_some _ _ n q h
  · exact h

theorem synthMax_keeps (t : Targets fm) (pb : Property (Value fm)) (T : Prim) (n : String)
    (q : Property (Value fm)) (h : getProperty t.dflt n = some q) :
    getProperty (synthMax t pb T).dflt n = some q := by
  unfold synthMax
  split
  · cases t with
    | distinct d m x => exact h
    | same o => exact getProperty_append_some _ _ n q h
  · exact h

theorem synthTargets_keeps (t : Targets fm) (pb : Property (Value fm)) (T : Prim) (n : String)
    (q : Property (Value fm)) (h : getProperty t.dflt n = some q) :
    getProperty (synthTargets t pb T).dflt n = some q :=
  synthMax_keeps _ pb T n q (synthMin_keeps _ pb T n q (synthDflt_keeps t pb n q h))

theorem ensureSub_keeps (d : Bag fm) (sub : Property (Value fm)) (n : String)
    (q : Property (Value fm)) (h : getProperty d n = some q) :
    getProperty (ensureSub d sub) n = some q := by
  unfold ensureSub
  split
  · exact h
  · exact getProperty_append_some _ _ n q h

theorem setPropertyTypeConfig_keeps (m : String) (v : Value fm) (n : String)
    (q : Property (Value fm)) (hq : q.value.isConfig = false) :
    ∀ d : Bag fm, getProperty d n = some q →
      getProperty (setPropertyTypeConfig m v d) n = some q := by
  intro d
  induction d with
  | nil => intro h; exact h
  | cons p rest ih =>
    intro h
    unfold setPropertyTypeConfig
    unfold getProperty at h ih ⊢
    by_cases hp : p.name = n
    · have hpq : p = q := by simpa [List.find?_cons, hp] using h
      subst hpq
      simp [hq, List.find?_cons, hp]
    · have hr : List.find? (fun p => p.name == n) rest = some q := by
        simpa [List.find?_cons, hp] using h
      split
      · simp [List.find?_cons, hp, hr]
      · simp [List.find?_cons, hp, ih hr]

theorem loop_keeps_default (n : String) (q : Property (Value fm))
    (hq : q.value.isConfig = false) (ps : List (Property (Value fm))) :
    ∀ (pre : String) (cd : GroupVec) (t : Targets fm) (group : GroupRef) (id : Int)
      (r : GroupVec × Targets fm),
      getGroupDescription.loop ps pre cd t group id = some r →
      getProperty t.dflt n = some q → getProperty r.2.dflt n = some q := by
  induction ps with
  | nil =>
    intro pre cd t group id r h hk
    simp only [getGroupDescription.loop, Option.some.injEq] at h
    subst h
    exact hk
  | cons i rest ih =>
    intro pre cd t group id r h hk
    rw [loop_cons] at h
    cases hT : i.value.primOf with
    | some T =>
      rw [hT] at h
      simp only at h
      cases hu : cd.update group (addParam ⟨pre ++ i.name, getType T, i.description⟩) with
      | none => rw [hu] at h; cases h
      | some cd1 =>
        rw [hu] at h
        exact ih pre cd1 _ group id r h (synthTargets_keeps t i T n q hk)
    | none =>
      rw [hT] at h
      simp only at h
      cases hb : i.value.isBag with
      | false =>
        rw [hb] at h
        exact ih pre cd t group id r h hk
      | true =>
        rw [hb] at h
        simp only [if_true] at h
        cases hg : cd.deref group with
        | none => rw [hg] at h; cases h
        | some g =>
          rw [hg] at h
          simp only at h
          cases hs : getGroupDescription i.value ((pre ++ i.name) ++ "__") cd
              (.same (subConfig (ensureSub (ensureSub (ensureSub t.dflt i) i) i) i.name))
              i.name "" g.id (id + 1) with
          | none => rw [hs] at h; cases h
          | some rs =>
            rw [hs] at h
            obtain ⟨cd2, tsub⟩ := rs
            apply ih pre cd2 _ group (id + 1) r h
            rw [dflt_setDflt]
            apply setPropertyTypeConfig_keeps _ _ n q hq
            exact ensureSub_keeps _ i n q (ensureSub_keeps _ i n q (ensureSub_keeps _ i n q hk))


theorem addBound_extends (bound : Prim → Value fm) (m : Bag fm) (p : Property (Value fm)) :
    m <+: addBound bound m p := by
  unfold addBound
  split
  · split
    · exact List.prefix_append m _
    · exact List.prefix_refl m
  · exact List.prefix_refl m

theorem foldl_addBound_extends (bound : Prim → Value fm) (ps : List (Property (Value fm))) :
    ∀ m : Bag fm, m <+: ps.foldl (addBound bound) m := by
  induction ps with
  | nil => intro m; exact List.prefix_refl m
  | cons x ps ih => intro m; exact (addBound_extends bound m x).trans (ih _)

/-- C9, as amended: for every cache state, key and owner bag, (1) the description cached
after a refresh is the description a build into an empty cache produces, whatever entry was
there before (also in whether the build has a defined result); (2) when the key had no entry,
the whole entry is the one the build into an empty cache produces; (3) when the key had an
entry, its defaults, minima and maxima are kept, not rebuilt: the cached minima and maxima
bags are initial segments of the new ones (properties are only appended), and every non-bag
property found by name in the cached defaults is still found there after the refresh. -/
theorem refresh_rebuilds_description_keeps_defaults (fm : FloatModel) (cache_ : CacheMap fm)
    (server : Nat) (properties : Bag fm) :
    ((refreshDescription cache_ server properties).map
        (fun m => (m server).map (fun c => c.description_message_))
      = (refreshDescription (emptyCache fm) server properties).map
        (fun m => (m server).map (fun c => c.description_message_))) ∧
    (cache_ server = none →
      (refreshDescription cache_ server properties).map (fun m => m server)
        = (refreshDescription (emptyCache fm) server properties).map (fun m => m server)) ∧
    (∀ (c : Cache fm) (m : CacheMap fm),
      cache_ server = some c → refreshDescription cache_ server properties = some m →
      ∃ c2, m server = some c2 ∧ c.min_ <+: c2.min_ ∧ c.max_ <+: c2.max_ ∧
        (∀ (n : String) (q : Property (Value fm)),
          getProperty c.min_ n = some q → getProperty c2.min_ n = some q) ∧
        (∀ (n : String) (q : Property (Value fm)),
          getProperty c.max_ n = some q → getProperty c2.max_ n = some q) ∧
        (∀ (n : String) (q : Property (Value fm)),
          getProperty c.default_ n = some q → q.value.isConfig = false →
          getProperty c2.default_ n = some q)) := by
  refine ⟨?_, ?_, ?_⟩
  · unfold refreshDescription buildCache
    have hv := build_groups_indep_value (.bag properties) "" GroupVec.new
      (.distinct (match cache_ server with | some c => c | none => Cache.new fm).default_
        (match cache_ server with | some c => c | none => Cache.new fm).min_
        (match cache_ server with | some c => c | none => Cache.new fm).max_)
      (.distinct (match emptyCache fm server with | some c => c | none => Cache.new fm).default_
        (match emptyCache fm server with | some c => c | none => Cache.new fm).min_
        (match emptyCache fm server with | some c => c | none => Cache.new fm).max_)
      "Default" "" 0 0
    simp only []
    revert hv
    cases getGroupDescription (.bag properties) "" GroupVec.new
      (.distinct (match cache_ server with | some c => c | none => Cache.new fm).default_
        (match cache_ server with | some c => c | none => Cache.new fm).min_
        (match cache_ server with | some c => c | none => Cache.new fm).max_)
      "Default" "" 0 0 <;>
    cases getGroupDescription (.bag properties) "" GroupVec.new
      (.distinct (match emptyCache fm server with | some c => c | none => Cache.new fm).default_
        (match emptyCache fm server with | some c => c | none => Cache.new fm).min_
        (match emptyCache fm server with | some c => c | none => Cache.new fm).max_)
      "Default" "" 0 0 <;>
    intro hv <;> simp_all
  · intro hnone
    unfold refreshDescription buildCache
    simp only [hnone, emptyCache]
    cases getGroupDescription (.bag properties) "" GroupVec.new
      (.distinct (Cache.new fm).default_ (Cache.new fm).min_ (Cache.new fm).max_)
      "Default" "" 0 0 <;> simp
  · intro c m hc hm
    unfold refreshDescription buildCache at hm
    simp only [hc] at hm
    cases hb : getGroupDescription (.bag properties) "" GroupVec.new
        (.distinct c.default_ c.min_ c.max_) "Default" "" 0 0 with
    | none => rw [hb] at hm; cases hm
    | some r =>
      rw [hb] at hm
      obtain ⟨cd, t⟩ := r
      simp only [Option.some.injEq] at hm
      subst hm
      simp only [getGroupDescription] at hb
      obtain ⟨d2, hd⟩ := loop_bounds properties _ _ _ _ _ _ _ (cd, t) hb
      simp only at hd
      have hmin : t.min = properties.foldl (addBound (minValue fm)) c.min_ := by rw [hd]; rfl
      have hmax : t.max = properties.foldl (addBound (maxValue fm)) c.max_ := by rw [hd]; rfl
      refine ⟨⟨some cd.items, t.dflt, t.min, t.max⟩, by simp, ?_, ?_, ?_, ?_, ?_⟩
      · show c.min_ <+: t.min
        rw [hmin]; exact foldl_addBound_extends _ properties c.min_
      · show c.max_ <+: t.max
        rw [hmax]; exact foldl_addBound_extends _ properties c.max_
      · intro n q hk
        show getProperty t.min n = some q
        rw [hmin]; exact foldl_addBound_keeps _ properties n q c.min_ hk
      · intro n q hk
        show getProperty t.max n = some q
        rw [hmax]; exact foldl_addBound_keeps _ properties n q c.max_ hk
      · intro n q hk hq
        exact loop_keeps_default n q hq properties _ _ _ _ _ _ hb hk

/-- C9, instance: after the refresh of `cachedOnce` over `ownerAfter` the cached default of
`a` is still the one found before, and so is its cached minimum. -/
theorem refresh_rebuilds_description_keeps_defaults_witness :
    ∃ c2, refreshDescription cachedOnce 0 ownerAfter = some c2 ∧
      ∃ e, c2 0 = some e ∧ getProperty e.default_ "a" = some ⟨"a", "", .int 5⟩ ∧
        getProperty e.min_ "a" = some ⟨"a", "", minValue intFloats .int⟩ := by
  have hs : (refreshDescription cachedOnce 0 ownerAfter).isSome = true := by decide!
  obtain ⟨m, hm⟩ := Option.isSome_iff_exists.mp hs
  obtain ⟨e, he, _, _, hmin, _, hdflt⟩ :=
    (refresh_rebuilds_description_keeps_defaults intFloats cachedOnce 0 ownerAfter).2.2
      ⟨some [⟨"Default", "", 0, 0, [⟨"a", "int", ""⟩]⟩], ownerBefore,
        [⟨"a", "", minValue intFloats .int⟩], [⟨"a", "", maxValue intFloats .int⟩]⟩
      m rfl hm
  exact ⟨m, hm, e, he, hdflt "a" ⟨"a", "", .int 5⟩ rfl rfl, hmin "a" _ rfl⟩

/-- C9, counterexample to the unamended claim: the entry after a refresh of `cachedOnce` over
`ownerAfter` holds the default `a = 5`, the entry a build from scratch produces holds
`a = 6`, so the two entries differ. -/
theorem refresh_keeps_stale_default_counterexample :
    ((refreshDescription cachedOnce 0 ownerAfter).bind (fun m => m 0)).map (fun e => e.default_)
        = some [⟨"a", "", .int 5⟩] ∧
      ((refreshDescription (emptyCache intFloats) 0 ownerAfter).bind (fun m => m 0)).map
          (fun e => e.default_) = some [⟨"a", "", .int 6⟩] ∧
      ((refreshDescription cachedOnce 0 ownerAfter).bind (fun m => m 0)).map (fun e => e.default_)
        ≠ ((refreshDescription (emptyCache intFloats) 0 ownerAfter).bind (fun m => m 0)).map
          (fun e => e.default_) := by
  have h1 : ((refreshDescription cachedOnce 0 ownerAfter).bind (fun m => m 0)).map
      (fun e => e.default_) = some [⟨"a", "", .int 5⟩] := rfl
  have h2 : ((refreshDescription (emptyCache intFloats) 0 ownerAfter).bind (fun m => m 0)).map
      (fun e => e.default_) = some [⟨"a", "", .int 6⟩] := rfl
  refine ⟨h1, h2, ?_⟩
  rw [h1, h2]
  simp

/-- C10: bounds. The value the builder stores as minimum (maximum) of a primitive type is the
type's natural bound: `false/true`, `-2^31 / 2^31-1`, `0 / 2^32-1` (the `unsigned int`
maximum passes through the registry's `int` return type), empty string, `-DBL_MAX/DBL_MAX`,
`-FLT_MAX/FLT_MAX`. After a build from empty bags over a bag with distinct names, for every
primitive leaf of the bag the minima and maxima bags hold under the leaf's name a property
of its name and description with that bound, and every property of the minima (maxima) bag
is such a bound of a primitive leaf. (Floats: `float → double → float` is the identity.) -/
theorem synthesized_bounds_natural (fm : FloatModel)
    (hfl : ∀ f : fm.Flt, fm.narrow (fm.widen f) = f) (B : Bag fm)
    (hnd : (B.map (fun p => p.name)).Nodup) (r : GroupVec × Targets fm)
    (h : freshBuild B = some r) :
    (∀ T, minValue fm T = naturalMin fm T ∧ maxValue fm T = naturalMax fm T) ∧
      (∀ p ∈ B, ∀ T, p.value.isPrim T = true →
        getProperty r.2.min p.name = some ⟨p.name, p.description, naturalMin fm T⟩ ∧
        getProperty r.2.max p.name = some ⟨p.name, p.description, naturalMax fm T⟩) ∧
      (∀ q ∈ r.2.min, ∃ p ∈ B, ∃ T, p.value.isPrim T = true ∧
        q = ⟨p.name, p.description, naturalMin fm T⟩) ∧
      (∀ q ∈ r.2.max, ∃ p ∈ B, ∃ T, p.value.isPrim T = true ∧
        q = ⟨p.name, p.description, naturalMax fm T⟩) := by
  obtain ⟨hmin, hmax⟩ := freshBuild_bounds B r h
  refine ⟨fun T => ⟨minValue_natural hfl T, maxValue_natural hfl T⟩, ?_, ?_, ?_⟩
  · intro p hp T hT
    rw [hmin, hmax, ← minValue_natural hfl T, ← maxValue_natural hfl T]
    exact ⟨foldl_addBound_leaf _ B hnd [] (fun _ _ => rfl) p hp T (primOf_of_isPrim _ _ hT),
      foldl_addBound_leaf _ B hnd [] (fun _ _ => rfl) p hp T (primOf_of_isPrim _ _ hT)⟩
  · intro q hq
    rw [hmin] at hq
    rcases foldl_addBound_mem _ B [] q hq with h0 | ⟨p, hp, T, hT, he⟩
    · cases h0
    · exact ⟨p, hp, T, hT, by rw [he, minValue_natural hfl T]⟩
  · intro q hq
    rw [hmax] at hq
    rcases foldl_addBound_mem _ B [] q hq with h0 | ⟨p, hp, T, hT, he⟩
    · cases h0
    · exact ⟨p, hp, T, hT, by rw [he, maxValue_natural hfl T]⟩

/-- C10, instance: in the build of `sampleLeaves` the maximum synthesized for the
`unsigned int` leaf `u` is `2^32 - 1`. -/
theorem synthesized_bounds_natural_witness :
    ∃ r, freshBuild sampleLeaves = some r ∧
      getProperty r.2.max "u" = some ⟨"u", "mask", .uint (2 ^ 32 - 1)⟩ := by
  have hs : (freshBuild sampleLeaves).isSome = true := by decide!
  obtain ⟨r, hr⟩ := Option.isSome_iff_exists.mp hs
  exact ⟨r, hr,
    ((synthesized_bounds_natural intFloats (fun _ => rfl) sampleLeaves (by decide) r hr).2.1
      ⟨"u", "mask", .uint 4000000000⟩ (by simp [sampleLeaves]) .uint rfl).2⟩


/-! ## Lemmas: decoding writes every matched leaf -/

theorem wireValue_isPrim (T : Prim) (msg : Config fm) (key : String) (v : Value fm)
    (h : wireValue T msg key = some v) : v.isPrim T = true := by
  cases T <;> simp only [wireValue, Option.map_eq_some'] at h <;>
    obtain ⟨a, _, rfl⟩ := h <;> rfl

theorem isPrim_unique (v : Value fm) (T T2 : Prim) (h : v.isPrim T = true)
    (h2 : v.isPrim T2 = true) : T = T2 := by
  cases v <;> cases T <;> cases T2 <;> simp_all [Value.isPrim]

theorem isPrim_not_config (v : Value fm) (T : Prim) (h : v.isPrim T = true) :
    v.isConfig = false := by
  cases v <;> cases T <;> simp_all [Value.isPrim, Value.isConfig]

theorem hasName_of_getParameter {α : Type} (vec : List (Param α)) (key : String) (a : α)
    (h : getParameter vec key = some a) : hasName vec key = true := by
  unfold getParameter at h
  unfold hasName
  cases hf : List.find? (fun n => n.name == key) vec with
  | none => simp [hf] at h
  | some x =>
    rw [List.any_eq_true]
    have h2 := List.find?_some hf
    exact ⟨x, List.mem_of_find?_eq_some hf, h2⟩

theorem paramFound_of_wireValue (T : Prim) (msg : Config fm) (key : String) (v : Value fm)
    (h : wireValue T msg key = some v) : paramFound msg key = true := by
  cases T <;> simp only [wireValue, Option.map_eq_some'] at h <;>
    obtain ⟨a, ha, _⟩ := h <;>
    simp [paramFound, hasName_of_getParameter _ _ _ ha]

theorem getPropertyType_cons_pos (T : Prim) (n : String) (p : Property (Value fm))
    (rest : Bag fm) (h : (p.value.isPrim T && p.name == n) = true) :
    getPropertyType T (p :: rest) n = some p := by
  unfold getPropertyType
  rw [List.find?_cons]
  simp only [h]

theorem getPropertyType_cons_neg (T : Prim) (n : String) (p : Property (Value fm))
    (rest : Bag fm) (h : ¬ ((p.value.isPrim T && p.name == n) = true)) :
    getPropertyType T (p :: rest) n = getPropertyType T rest n := by
  unfold getPropertyType
  rw [List.find?_cons]
  simp only [Bool.not_eq_true] at h
  simp only [h]

theorem holds_append (T : Prim) (n : String) (v : Value fm) (bag : Bag fm)
    (x : Property (Value fm)) (h : Holds T n v bag) : Holds T n v (bag ++ [x]) := by
  obtain ⟨q, hq, hv⟩ := h
  refine ⟨q, ?_, hv⟩
  unfold getPropertyType at *
  rw [List.find?_append, hq]
  rfl

theorem holds_setPropertyType_same (T : Prim) (n : String) (v : Value fm)
    (hv : v.isPrim T = true) :
    ∀ bag : Bag fm, (getPropertyType T bag n).isSome = true →
      Holds T n v (setPropertyType T n v bag) := by
  intro bag
  induction bag with
  | nil => intro h; simp [getPropertyType] at h
  | cons p rest ih =>
    intro h
    unfold setPropertyType
    by_cases hp : (p.value.isPrim T && p.name == n) = true
    · rw [if_pos hp]
      simp only [Bool.and_eq_true, beq_iff_eq] at hp
      exact ⟨{ p with value := v },
        getPropertyType_cons_pos T n _ _ (by simp [hv, hp.2]), rfl⟩
    · rw [if_neg hp]
      have hrest : (getPropertyType T rest n).isSome = true := by
        rw [getPropertyType_cons_neg T n p rest hp] at h; exact h
      obtain ⟨q, hq, hqv⟩ := ih hrest
      exact ⟨q, by rw [getPropertyType_cons_neg T n p _ hp]; exact hq, hqv⟩

theorem holds_setPropertyType_other (T T2 : Prim) (n m : String) (v v2 : Value fm)
    (hv2 : v2.isPrim T2 = true) (hne : T2 ≠ T ∨ m ≠ n) :
    ∀ bag : Bag fm, Holds T n v bag → Holds T n v (setPropertyType T2 m v2 bag) := by
  intro bag
  induction bag with
  | nil => intro h; exact h
  | cons p rest ih =>
    intro h
    unfold setPropertyType
    by_cases hp : (p.value.isPrim T2 && p.name == m) = true
    · rw [if_pos hp]
      simp only [Bool.and_eq_true, beq_iff_eq] at hp
      have hold : ¬ ((p.value.isPrim T && p.name == n) = true) := by
        simp only [Bool.and_eq_true, beq_iff_eq]
        rintro ⟨h1, h2⟩
        rcases hne with h3 | h3
        · exact h3 (isPrim_unique _ _ _ hp.1 h1)
        · exact h3 (hp.2.symm.trans h2)
      have hnew : ¬ ((v2.isPrim T && p.name == n) = true) := by
        simp only [Bool.and_eq_true, beq_iff_eq]
        rintro ⟨h1, h2⟩
        rcases hne with h3 | h3
        · exact h3 (isPrim_unique _ _ _ hv2 h1)
        · exact h3 (hp.2.symm.trans h2)
      obtain ⟨q, hq, hqv⟩ := h
      refine ⟨q, ?_, hqv⟩
      rw [getPropertyType_cons_neg T n p rest hold] at hq
      rw [getPropertyType_cons_neg T n _ rest hnew]
      exact hq
    · rw [if_neg hp]
      obtain ⟨q, hq, hqv⟩ := h
      by_cases hpp : (p.value.isPrim T && p.name == n) = true
      · refine ⟨q, ?_, hqv⟩
        rw [getPropertyType_cons_pos T n p rest hpp] at hq
        rw [getPropertyType_cons_pos T n p _ hpp]
        exact hq
      · have hrest : Holds T n v rest := by
          refine ⟨q, ?_, hqv⟩
          rw [getPropertyType_cons_neg T n p rest hpp] at hq
          exact hq
        obtain ⟨q2, hq2, hqv2⟩ := ih hrest
        refine ⟨q2, ?_, hqv2⟩
        rw [getPropertyType_cons_neg T n p _ hpp]
        exact hq2

theorem holds_setPropertyTypeConfig (T : Prim) (n m : String) (v : Value fm)
    (ps : List (Property (Value fm))) :
    ∀ bag : Bag fm, Holds T n v bag → Holds T n v (setPropertyTypeConfig m (.config ps) bag) := by
  intro bag
  induction bag with
  | nil => intro h; exact h
  | cons p rest ih =>
    intro h
    unfold setPropertyTypeConfig
    by_cases hp : (p.value.isConfig && p.name == m) = true
    · rw [if_pos hp]
      simp only [Bool.and_eq_true, beq_iff_eq] at hp
      have hold : ¬ ((p.value.isPrim T && p.name == n) = true) := by
        simp only [Bool.and_eq_true, beq_iff_eq]
        rintro ⟨h1, _⟩
        have := isPrim_not_config _ _ h1
        rw [hp.1] at this
        cases this
      obtain ⟨q, hq, hqv⟩ := h
      refine ⟨q, ?_, hqv⟩
      rw [getPropertyType_cons_neg T n p rest hold] at hq
      rw [getPropertyType_cons_neg T n _ rest (by cases T <;> simp [Value.isPrim])]
      exact hq
    · rw [if_neg hp]
      obtain ⟨q, hq, hqv⟩ := h
      by_cases hpp : (p.value.isPrim T && p.name == n) = true
      · refine ⟨q, ?_, hqv⟩
        rw [getPropertyType_cons_pos T n p rest hpp] at hq
        rw [getPropertyType_cons_pos T n p _ hpp]
        exact hq
      · have hrest : Holds T n v rest := by
          refine ⟨q, ?_, hqv⟩
          rw [getPropertyType_cons_neg T n p rest hpp] at hq
          exact hq
        obtain ⟨q2, hq2, hqv2⟩ := ih hrest
        refine ⟨q2, ?_, hqv2⟩
        rw [getPropertyType_cons_neg T n p _ hpp]
        exact hq2


theorem holds_propertyFromMessage (T : Prim) (n : String) (v : Value fm) (T2 : Prim)
    (msg : Config fm) (i : Property (Value fm)) (c : Bag fm) (key : String)
    (hsame : i.name = n → wireValue T msg key = some v) (h : Holds T n v c) :
    Holds T n v (propertyFromMessage T2 msg i c key).2 := by
  unfold propertyFromMessage
  split
  · exact h
  · cases hw : wireValue T2 msg key with
    | none => exact h
    | some value =>
      simp only
      have hv2 := wireValue_isPrim T2 msg key value hw
      cases hg : getPropertyType T2 c i.name with
      | none => exact holds_append T n v c _ h
      | some q0 =>
        simp only
        by_cases hT : T2 = T
        · subst hT
          by_cases hn : i.name = n
          · have hvv : value = v := by
              have := hsame hn
              rw [hw] at this
              exact Option.some.inj this
            subst hvv
            rw [hn]
            obtain ⟨q, hq, _⟩ := h
            exact holds_setPropertyType_same T2 n value hv2 c (by rw [hq]; rfl)
          · exact holds_setPropertyType_other T2 T2 n i.name v value hv2 (Or.inr hn) c h
        · exact holds_setPropertyType_other T T2 n i.name v value hv2 (Or.inl hT) c h

theorem holds_firstSuccess (T : Prim) (n : String) (v : Value fm) (msg : Config fm)
    (i : Property (Value fm)) (key : String)
    (hsame : i.name = n → wireValue T msg key = some v) (Ts : List Prim) :
    ∀ c : Bag fm, Holds T n v c →
      Holds T n v (firstSuccess (fun T2 c2 => propertyFromMessage T2 msg i c2 key) Ts c).2 := by
  induction Ts with
  | nil => intro c h; exact h
  | cons T2 Ts ih =>
    intro c h
    unfold firstSuccess
    have h1 := holds_propertyFromMessage T n v T2 msg i c key hsame h
    cases hr : propertyFromMessage T2 msg i c key with
    | mk ok c1 =>
      rw [hr] at h1
      cases ok
      · exact ih c1 h1
      · exact h1

theorem propertyFromMessage_writes (T : Prim) (msg : Config fm) (i : Property (Value fm))
    (c : Bag fm) (key : String) (v : Value fm) (hT : i.value.isPrim T = true)
    (hw : wireValue T msg key = some v) :
    (propertyFromMessage T msg i c key).1 = true ∧
      Holds T i.name v (propertyFromMessage T msg i c key).2 := by
  have hv := wireValue_isPrim T msg key v hw
  unfold propertyFromMessage
  simp only [hT, Bool.not_true, Bool.false_eq_true, if_false, hw]
  cases hg : getPropertyType T c i.name with
  | some q0 =>
    exact ⟨rfl, holds_setPropertyType_same T i.name v hv c (by rw [hg]; rfl)⟩
  | none =>
    refine ⟨rfl, createSet i v, ?_, rfl⟩
    unfold getPropertyType at hg ⊢
    simp only [ownProperty]
    rw [List.find?_append, hg]
    simp [createSet, hv]

theorem firstSuccess_writes (T : Prim) (msg : Config fm) (i : Property (Value fm))
    (key : String) (v : Value fm) (hT : i.value.isPrim T = true)
    (hw : wireValue T msg key = some v) (Ts : List Prim) (hmem : T ∈ Ts) :
    ∀ c : Bag fm,
      (firstSuccess (fun T2 c2 => propertyFromMessage T2 msg i c2 key) Ts c).1 = true ∧
      Holds T i.name v
        (firstSuccess (fun T2 c2 => propertyFromMessage T2 msg i c2 key) Ts c).2 := by
  induction Ts with
  | nil => cases hmem
  | cons T2 Ts ih =>
    intro c
    unfold firstSuccess
    by_cases h2 : T2 = T
    · subst h2
      have hp := propertyFromMessage_writes T2 msg i c key v hT hw
      cases hr : propertyFromMessage T2 msg i c key with
      | mk ok c1 =>
        rw [hr] at hp
        obtain ⟨hok, hh⟩ := hp
        simp only at hok
        subst hok
        exact ⟨rfl, hh⟩
    · have hcast : i.value.isPrim T2 = false := by
        cases hc : i.value.isPrim T2 with
        | false => rfl
        | true => exact absurd (isPrim_unique _ _ _ hc hT) h2
      have hr : propertyFromMessage T2 msg i c key = (false, c) := by
        unfold propertyFromMessage
        simp [hcast]
      rw [hr]
      have hmem2 : T ∈ Ts := by
        rcases List.mem_cons.mp hmem with h | h
        · exact absurd h.symm h2
        · exact h
      exact ih hmem2 c


theorem holds_fromMessage_loop (T : Prim) (n : String) (v : Value fm) (msg : Config fm)
    (pre : String) (hw : wireValue T msg (pre ++ n) = some v) :
    ∀ (sample this : Bag fm) (result : Bool), Holds T n v this →
      Holds T n v (fromMessageValue.loop msg sample this pre result).2 := by
  intro sample
  induction sample with
  | nil => intro this result h; exact h
  | cons i rest ih =>
    intro this result h
    rw [fromMessageValue.loop]
    split
    · exact ih this result h
    · have hsame : i.name = n → wireValue T msg (pre ++ i.name) = some v := by
        intro e; rw [e]; exact hw
      have h1 := holds_firstSuccess T n v msg i (pre ++ i.name) hsame primOrder this h
      cases hr : firstSuccess (fun T c => propertyFromMessage T msg i c (pre ++ i.name))
          primOrder this with
      | mk ok this1 =>
        rw [hr] at h1
        simp only at h1
        cases ok
        · simp only
          split
          · apply ih
            apply holds_setPropertyTypeConfig
            split
            · exact h1
            · exact holds_append T n v this1 _ h1
          · exact ih _ _ h1
        · exact ih _ _ h1

theorem fromMessage_loop_writes (T : Prim) (msg : Config fm) (pre : String)
    (p : Property (Value fm)) (v : Value fm) (hT : p.value.isPrim T = true)
    (hw : wireValue T msg (pre ++ p.name) = some v) :
    ∀ (sample : Bag fm), p ∈ sample → ∀ (this : Bag fm) (result : Bool),
      Holds T p.name v (fromMessageValue.loop msg sample this pre result).2 := by
  intro sample
  induction sample with
  | nil => intro hp; cases hp
  | cons i rest ih =>
    intro hp this result
    rcases List.mem_cons.mp hp with h | h
    · subst h
      rw [fromMessageValue.loop]
      simp only [paramFound_of_wireValue T msg _ v hw, Bool.not_true, Bool.false_eq_true,
        if_false]
      have hc := firstSuccess_writes T msg p (pre ++ p.name) v hT hw primOrder
        (by cases T <;> simp [primOrder]) this
      cases hr : firstSuccess (fun T c => propertyFromMessage T msg p c (pre ++ p.name))
          primOrder this with
      | mk ok this1 =>
        rw [hr] at hc
        obtain ⟨hok, hh⟩ := hc
        simp only at hok hh
        subst hok
        exact holds_fromMessage_loop T p.name v msg pre hw rest this1 result hh
    · rw [fromMessageValue.loop]
      split
      · exact ih h this result
      · split
        · exact ih h _ _
        · split
          · exact ih h _ _
          · exact ih h _ _


/-- C11: best-effort decode. For every decode call, whatever flag it returns (so also when
some message-present property is unmatched and the call returns `false`), every sample
property of a primitive type `T` for which the message's sequence for `T` has an entry under
the mangled name is written: afterwards the target's property of that name and type holds
the message's value (converted to `T`). -/
theorem decode_writes_every_matched_leaf (fm : FloatModel) (msg : Config fm)
    (sample this : Bag fm) (pre : String) (p : Property (Value fm)) (hp : p ∈ sample)
    (T : Prim) (hT : p.value.isPrim T = true) (v : Value fm)
    (hw : wireValue T msg (pre ++ p.name) = some v) :
    ∃ q, getPropertyType T (fromMessage this msg sample pre).2 p.name = some q ∧
      q.value = v :=
  fromMessage_loop_writes T msg pre p v hT hw sample hp this true

/-- C11, instance: the decode of `bestEffortMessage` against `bestEffortSample` returns
`false` because of `bad`, and both `a` (before it) and `b` (after it) are written. -/
theorem decode_writes_every_matched_leaf_witness :
    (fromMessage [] bestEffortMessage bestEffortSample "").1 = false ∧
      (∃ q, getPropertyType .int (fromMessage [] bestEffortMessage bestEffortSample "").2 "a"
        = some q ∧ q.value = .int 1) ∧
      (∃ q, getPropertyType .int (fromMessage [] bestEffortMessage bestEffortSample "").2 "b"
        = some q ∧ q.value = .int 3) :=
  ⟨rfl,
    decode_writes_every_matched_leaf intFloats bestEffortMessage bestEffortSample [] ""
      ⟨"a", "", .int 0⟩ (by simp [bestEffortSample]) .int rfl (.int 1) rfl,
    decode_writes_every_matched_leaf intFloats bestEffortMessage bestEffortSample [] ""
      ⟨"b", "", .int 0⟩ (by simp [bestEffortSample]) .int rfl (.int 3) rfl⟩


/-! ## Lemmas: rebuilding, unsigned values -/

theorem buildCache_of_entry (cache_ : CacheMap fm) (server : Nat) (properties : Bag fm) :
    buildCache cache_ server properties
      = match getGroupDescription (.bag properties) "" GroupVec.new
          (.distinct ((cache_ server).getD (Cache.new fm)).default_
            ((cache_ server).getD (Cache.new fm)).min_
            ((cache_ server).getD (Cache.new fm)).max_) "Default" "" 0 0 with
        | none => none
        | some (cd, t) =>
          some (fun k => if k = server then some ⟨some cd.items, t.dflt, t.min, t.max⟩
            else cache_ k) := by
  unfold buildCache
  cases cache_ server <;> rfl

theorem rebuild_same_description (cache_ : CacheMap fm) (server : Nat) (properties : Bag fm)
    (m1 : CacheMap fm) (h : buildCache cache_ server properties = some m1) :
    ∃ m2 groups, refreshDescription m1 server properties = some m2 ∧
      (m1 server).bind (fun c => c.description_message_) = some groups ∧
      (m2 server).bind (fun c => c.description_message_) = some groups := by
  rw [buildCache_of_entry] at h
  cases hb : getGroupDescription (.bag properties) "" GroupVec.new
      (.distinct ((cache_ server).getD (Cache.new fm)).default_
        ((cache_ server).getD (Cache.new fm)).min_
        ((cache_ server).getD (Cache.new fm)).max_) "Default" "" 0 0 with
  | none => rw [hb] at h; cases h
  | some r =>
    rw [hb] at h
    obtain ⟨cd, t⟩ := r
    simp only [Option.some.injEq] at h
    subst h
    have hv := build_groups_indep_value (.bag properties) "" GroupVec.new
      (.distinct t.dflt t.min t.max)
      (.distinct ((cache_ server).getD (Cache.new fm)).default_
        ((cache_ server).getD (Cache.new fm)).min_
        ((cache_ server).getD (Cache.new fm)).max_) "Default" "" 0 0
    rw [hb] at hv
    unfold refreshDescription
    rw [buildCache_of_entry]
    simp only [if_true, Option.getD_some]
    cases hb2 : getGroupDescription (.bag properties) "" GroupVec.new
        (.distinct t.dflt t.min t.max) "Default" "" 0 0 with
    | none => rw [hb2] at hv; simp at hv
    | some r2 =>
      rw [hb2] at hv
      obtain ⟨cd2, t2⟩ := r2
      simp only [Option.map_some', Option.some.injEq] at hv
      subst hv
      exact ⟨_, cd2.items, rfl, by simp, by simp⟩


theorem toInt32_cases (u : Nat) (hu : u < 2 ^ 32) :
    toInt32 u = if u < 2 ^ 31 then (u : Int) else (u : Int) - 2 ^ 32 := by
  unfold toInt32
  rw [Nat.mod_eq_of_lt hu]

theorem toMessage_single_uint (u : Nat) (n d pre : String) :
    toMessage [⟨n, d, .uint u⟩] pre (Config.empty fm)
      = ⟨[], [⟨pre ++ n, toInt32 u⟩], [], []⟩ := by
  rfl

theorem fromMessage_single_uint (u : Nat) (hu : u < 2 ^ 32) (n d pre : String) :
    fromMessage [] (⟨[], [⟨pre ++ n, toInt32 u⟩], [], []⟩ : Config fm) [⟨n, d, .uint u⟩] pre
      = (true, [⟨n, d, .uint u⟩]) := by
  simp [fromMessage, fromMessageValue, fromMessageValue.loop, paramFound, hasName,
    firstSuccess, primOrder, propertyFromMessage, Value.isPrim, wireValue, getParameter,
    getPropertyType, ownProperty, createSet, toUInt32_toInt32 u hu]


/-- Schema builds are repeatable where they are defined. For every source bag and cache key:
when the first build for the key returns, the refresh over the unchanged bag returns too,
and both cache entries hold the same description (the same groups in the same order with
the same names, ids, parent ids and parameter lists); moreover the groups a build produces,
and whether it has a defined result, do not depend on what the defaults, minima and maxima
bags held. -/
theorem schema_build_idempotent (fm : FloatModel) (cache_ : CacheMap fm) (server : Nat)
    (properties : Bag fm) :
    (∀ m1, buildCache cache_ server properties = some m1 →
      ∃ m2 groups, refreshDescription m1 server properties = some m2 ∧
        (m1 server).bind (fun c => c.description_message_) = some groups ∧
        (m2 server).bind (fun c => c.description_message_) = some groups) ∧
    (∀ t t2 : Targets fm,
      (getGroupDescription (.bag properties) "" GroupVec.new t "Default" "" 0 0).map
          (fun r => r.1.items)
        = (getGroupDescription (.bag properties) "" GroupVec.new t2 "Default" "" 0 0).map
          (fun r => r.1.items)) := by
  refine ⟨rebuild_same_description cache_ server properties, ?_⟩
  intro t t2
  have h := congrArg (Option.map (fun cd : GroupVec => cd.items))
    (build_groups_indep_value (.bag properties) "" GroupVec.new t t2 "Default" "" 0 0)
  simpa [Option.map_map, Function.comp] using h

/-- Instance: for the scenario bag the first build and the refresh both return and cache
the same groups. -/
theorem schema_build_idempotent_witness :
    ∃ m1 m2 groups, buildCache (emptyCache intFloats) 0 scenarioBag = some m1 ∧
      refreshDescription m1 0 scenarioBag = some m2 ∧
      (m1 0).bind (fun c => c.description_message_) = some groups ∧
      (m2 0).bind (fun c => c.description_message_) = some groups := by
  have hs : (buildCache (emptyCache intFloats) 0 scenarioBag).isSome = true := by decide!
  obtain ⟨m1, h1⟩ := Option.isSome_iff_exists.mp hs
  obtain ⟨m2, groups, h2, h3, h4⟩ :=
    (schema_build_idempotent intFloats (emptyCache intFloats) 0 scenarioBag).1 m1 h1
  exact ⟨m1, m2, groups, h1, h2, h3, h4⟩

/-- C12: for the bag `siblingGroups` the first build for a new key has no defined result:
the push of the group for `g` moves the vector's elements, and the parent id of the group for
`k` is then read through the reference to the root group that was taken before the move. So
there is no description that a second build could reproduce. The same holds for
`leafAfterGroup`, where the parameter of `a` is written through that reference. -/
theorem first_build_undefined_after_nested_bag :
    (buildCache (emptyCache intFloats) 0 siblingGroups).isNone = true ∧
      (buildCache (emptyCache intFloats) 0 leafAfterGroup).isNone = true := by
  constructor <;> rfl

/-- C16: unsigned values travel as signed 32-bit. For an `unsigned int` leaf with value
`u < 2^32`: (a) `propertyToMessage<unsigned int>` appends to the `int` sequence, under the
mangled name, `u` when `u < 2^31` and `u - 2^32` otherwise; (b) decoding a message whose
`int` sequence holds that value under the key writes exactly `u` into the target's
`unsigned int` property; (c) encoding the one-leaf bag and decoding it returns the bag. -/
theorem unsigned_travels_as_signed (fm : FloatModel) (u : Nat) (hu : u < 2 ^ 32)
    (n d : String) :
    (∀ (msg : Config fm) (pre : String),
      propertyToMessage .uint msg ⟨n, d, .uint u⟩ pre
        = (true, { msg with ints := msg.ints ++
            [⟨pre ++ n, if u < 2 ^ 31 then (u : Int) else (u : Int) - 2 ^ 32⟩] })) ∧
    (∀ (msg : Config fm) (key : String) (this : Bag fm),
      getParameter msg.ints key = some (if u < 2 ^ 31 then (u : Int) else (u : Int) - 2 ^ 32) →
      (propertyFromMessage .uint msg ⟨n, d, .uint u⟩ this key).1 = true ∧
        ∃ q, getPropertyType .uint (propertyFromMessage .uint msg ⟨n, d, .uint u⟩ this key).2 n
          = some q ∧ q.value = .uint u) ∧
    (∀ pre : String,
      fromMessage [] (toMessage [⟨n, d, .uint u⟩] pre (Config.empty fm)) [⟨n, d, .uint u⟩] pre
        = (true, [⟨n, d, .uint u⟩])) := by
  refine ⟨?_, ?_, ?_⟩
  · intro msg pre
    rw [← toInt32_cases u hu]
    rfl
  · intro msg key this hg
    rw [← toInt32_cases u hu] at hg
    have hw : wireValue .uint msg key = some (.uint u) := by
      simp only [wireValue, hg, Option.map_some', toUInt32_toInt32 u hu]
    exact propertyFromMessage_writes .uint msg ⟨n, d, .uint u⟩ this key (.uint u) rfl hw
  · intro pre
    rw [toMessage_single_uint]
    exact fromMessage_single_uint u hu n d pre

/-- C16, instance: `u = 4000000000` is sent as `-294967296` and comes back as
`4000000000`. -/
theorem unsigned_travels_as_signed_witness :
    propertyToMessage .uint (Config.empty intFloats) ⟨"u", "", .uint 4000000000⟩ ""
        = (true, { Config.empty intFloats with
            ints := (Config.empty intFloats).ints ++ [⟨"" ++ "u", -294967296⟩] }) ∧
      fromMessage [] (toMessage [⟨"u", "", .uint 4000000000⟩] "" (Config.empty intFloats))
          [⟨"u", "", .uint 4000000000⟩] ""
        = (true, [⟨"u", "", .uint 4000000000⟩]) :=
  ⟨(unsigned_travels_as_signed intFloats 4000000000 (by decide) "u" "").1
      (Config.empty intFloats) "",
    (unsigned_travels_as_signed intFloats 4000000000 (by decide) "u" "").2.2 ""⟩



/-! ## Lemmas: unsupported properties -/

theorem toMessage_entries (this : Bag fm) (pre : String) (msg : Config fm) :
    toMessage this pre msg = msg.appendEntries (leafEntries.go pre this) := by
  unfold toMessage
  rw [toMessage_value _ _ _ _ (by rfl)]
  rfl

theorem leafEntries_unsupported (pre name : String) (v : Value fm) (hl : v.isLeaf = false)
    (hc : v.isConfig = false) : leafEntries pre name v = [] := by
  cases v <;> simp_all [leafEntries, Value.isLeaf, primOrder, Value.isPrim, Value.isConfig]

theorem leafEntries_encodeDrop {B B2 : Bag fm} (h : EncodeDrop B B2) :
    ∀ pre : String, leafEntries.go pre B = leafEntries.go pre B2 := by
  induction h with
  | here u rest hl hc =>
    intro pre
    rw [leafEntries.go, leafEntries_unsupported pre u.name u.value hl hc]
    rfl
  | later p _ ih =>
    intro pre
    rw [leafEntries.go, leafEntries.go, ih pre]
  | inside n d rest _ ih =>
    intro pre
    rw [leafEntries.go, leafEntries.go]
    simp only [leafEntries]
    rw [ih]

theorem primOf_none_of_not_leaf (v : Value fm) (hl : v.isLeaf = false) : v.primOf = none := by
  cases v <;> simp_all [Value.isLeaf, primOrder, Value.isPrim, Value.primOf]

theorem loop_buildDrop {B B2 : Bag fm} (h : BuildDrop B B2) :
    ∀ (pre : String) (cd : GroupVec) (t : Targets fm) (group : GroupRef) (id : Int),
      getGroupDescription.loop B pre cd t group id
        = getGroupDescription.loop B2 pre cd t group id := by
  induction h with
  | here u rest hl hb =>
    intro pre cd t group id
    rw [loop_cons, primOf_none_of_not_leaf u.value hl]
    simp only [hb, Bool.false_eq_true, if_false]
  | later p _ ih =>
    intro pre cd t group id
    rw [loop_cons, loop_cons]
    simp only [ih]
  | inside n d rest _ ih =>
    intro pre cd t group id
    rw [loop_cons, loop_cons]
    simp only [Value.primOf, Value.isBag, if_true, getGroupDescription, ih, ensureSub,
      createSet]


/-- C13: unsupported types are skipped silently. When `B2` is `B` without one property that
the encoder does not support (at any depth), encoding `B` and `B2` gives the same message for
every prefix and initial message; when `B2` is `B` without one property that the schema
builder does not support (at any depth), the builder gives the same result for `B` and `B2`
(the same groups and parameters, the same defaults, minima and maxima, and a defined result
for the one exactly when for the other), and so does `buildCache`. Neither operation has an
error result: `__toMessage__` returns the message only. -/
theorem unsupported_properties_skipped (fm : FloatModel) (B B2 : Bag fm) :
    (EncodeDrop B B2 → ∀ (pre : String) (msg : Config fm),
      toMessage B pre msg = toMessage B2 pre msg) ∧
    (BuildDrop B B2 →
      (∀ (pre : String) (cd : GroupVec) (t : Targets fm) (name type : String)
        (parent id : Int),
        getGroupDescription (.bag B) pre cd t name type parent id
          = getGroupDescription (.bag B2) pre cd t name type parent id) ∧
      ∀ (cache_ : CacheMap fm) (server : Nat),
        buildCache cache_ server B = buildCache cache_ server B2) := by
  constructor
  · intro h pre msg
    rw [toMessage_entries, toMessage_entries, leafEntries_encodeDrop h]
  · intro h
    have hg : ∀ (pre : String) (cd : GroupVec) (t : Targets fm) (name type : String)
        (parent id : Int),
        getGroupDescription (.bag B) pre cd t name type parent id
          = getGroupDescription (.bag B2) pre cd t name type parent id := by
      intro pre cd t name type parent id
      simp only [getGroupDescription]
      exact loop_buildDrop h _ _ _ _ _
    refine ⟨hg, ?_⟩
    intro cache_ server
    unfold buildCache
    simp only [hg]

/-- C13, instance: `bestEffortSample` holds the unsupported property `bad` between the leaves
`a` and `b`; encoding and schema build give what they give for the bag of `a` and `b`. -/
theorem unsupported_properties_skipped_witness :
    toMessage bestEffortSample "" (Config.empty intFloats)
        = toMessage [⟨"a", "", .int 0⟩, ⟨"b", "", .int 0⟩] "" (Config.empty intFloats) ∧
      freshBuild bestEffortSample = freshBuild [⟨"a", "", .int 0⟩, ⟨"b", "", .int 0⟩] :=
  ⟨(unsupported_properties_skipped intFloats bestEffortSample
      [⟨"a", "", .int 0⟩, ⟨"b", "", .int 0⟩]).1
      (EncodeDrop.later _ (EncodeDrop.here _ _ rfl rfl)) "" (Config.empty intFloats),
    ((unsupported_properties_skipped intFloats bestEffortSample
      [⟨"a", "", .int 0⟩, ⟨"b", "", .int 0⟩]).2
      (BuildDrop.later _ (BuildDrop.here _ _ rfl rfl))).1 "" GroupVec.new
        (.distinct [] [] []) "Default" "" 0 0⟩



/-! ## Lemmas: mangled names -/

theorem firstSegment_of_good (n : List Char) (hs : hasSep n = false) :
    firstSegment n = n := by
  induction n with
  | nil => rfl
  | cons c rest ih =>
    cases rest with
    | nil => rfl
    | cons d rest2 =>
      simp only [hasSep, Bool.or_eq_false_iff] at hs
      simp only [firstSegment, hs.1, Bool.false_eq_true, if_false, ih hs.2]

theorem firstSegment_append_sep (n : List Char) (hs : hasSep n = false)
    (hl : n.getLast? ≠ some '_') (t : List Char) :
    firstSegment (n ++ '_' :: '_' :: t) = n := by
  induction n with
  | nil => simp [firstSegment]
  | cons c rest ih =>
    cases rest with
    | nil =>
      have hc : c ≠ '_' := by simpa using hl
      simp [firstSegment, hc]
    | cons d rest2 =>
      simp only [hasSep, Bool.or_eq_false_iff] at hs
      have hl2 : (d :: rest2).getLast? ≠ some '_' := by
        simpa [List.getLast?_cons_cons] using hl
      have := ih hs.2 hl2
      simp only [List.cons_append] at this ⊢
      simp only [firstSegment, hs.1, Bool.false_eq_true, if_false, this]


mutual
theorem pathNames_has_prefix (b : Bool) (pre : List Char) (name : String) (v : Value fm) :
    ∀ x ∈ pathNames b pre name v, ∃ tail, x = pre ++ tail := by
  cases v with
  | bag ps =>
    intro x hx
    cases b with
    | false => simp [pathNames] at hx
    | true =>
      simp only [pathNames, if_true] at hx
      obtain ⟨t, ht⟩ := pathNames_go_has_prefix true _ ps x hx
      exact ⟨name.data ++ ['_', '_'] ++ t, by rw [ht]; simp [List.append_assoc]⟩
  | config ps =>
    intro x hx
    cases b with
    | true => simp [pathNames] at hx
    | false =>
      simp only [pathNames, Bool.false_eq_true, if_false] at hx
      obtain ⟨t, ht⟩ := pathNames_go_has_prefix false _ ps x hx
      exact ⟨name.data ++ ['_', '_'] ++ t, by rw [ht]; simp [List.append_assoc]⟩
  | other t => intro x hx; simp [pathNames] at hx
  | _ =>
    intro x hx
    simp only [pathNames, List.mem_singleton] at hx
    exact ⟨name.data, hx⟩
theorem pathNames_go_has_prefix (b : Bool) (pre : List Char)
    (ps : List (Property (Value fm))) :
    ∀ x ∈ pathNames.go b pre ps, ∃ tail, x = pre ++ tail := by
  cases ps with
  | nil => intro x hx; simp [pathNames.go] at hx
  | cons p rest =>
    intro x hx
    rw [pathNames.go, List.mem_append] at hx
    rcases hx with h | h
    · exact pathNames_has_prefix b pre p.name p.value x h
    · exact pathNames_go_has_prefix b pre rest x h
end

theorem pathNames_form (b : Bool) (pre : List Char) (name : String) (v : Value fm) :
    ∀ x ∈ pathNames b pre name v, ∃ tail, x = pre ++ (name.data ++ tail) ∧
      (tail = [] ∨ ∃ t2, tail = '_' :: '_' :: t2) := by
  intro x hx
  cases v with
  | bag ps =>
    cases b with
    | false => simp [pathNames] at hx
    | true =>
      simp only [pathNames, if_true] at hx
      obtain ⟨t, ht⟩ := pathNames_go_has_prefix true _ ps x hx
      exact ⟨'_' :: '_' :: t, by rw [ht]; simp [List.append_assoc], Or.inr ⟨t, rfl⟩⟩
  | config ps =>
    cases b with
    | true => simp [pathNames] at hx
    | false =>
      simp only [pathNames, Bool.false_eq_true, if_false] at hx
      obtain ⟨t, ht⟩ := pathNames_go_has_prefix false _ ps x hx
      exact ⟨'_' :: '_' :: t, by rw [ht]; simp [List.append_assoc], Or.inr ⟨t, rfl⟩⟩
  | other t => simp [pathNames] at hx
  | _ =>
    simp only [pathNames, List.mem_singleton] at hx
    exact ⟨[], by rw [hx]; simp, Or.inl rfl⟩

theorem goodName_facts (s : String) (h : goodName s = true) :
    hasSep s.data = false ∧ s.data.getLast? ≠ some '_' ∧ s.data ≠ [] := by
  unfold goodName at h
  simp only [Bool.and_eq_true, Bool.not_eq_true', beq_eq_false_iff_ne, ne_eq,
    List.isEmpty_eq_false] at h
  exact ⟨h.1.1.2, h.2, by
    intro he
    have := h.1.1.1
    simp [he] at this⟩

theorem firstSegment_of_form (name : String) (hg : goodName name = true) (tail : List Char)
    (ht : tail = [] ∨ ∃ t2, tail = '_' :: '_' :: t2) :
    firstSegment (name.data ++ tail) = name.data := by
  obtain ⟨hs, hl, _⟩ := goodName_facts name hg
  rcases ht with h | ⟨t2, h⟩
  · rw [h, List.append_nil]; exact firstSegment_of_good _ hs
  · rw [h]; exact firstSegment_append_sep _ hs hl t2

theorem pathNames_go_mem (b : Bool) (pre : List Char) (ps : List (Property (Value fm))) :
    ∀ y ∈ pathNames.go b pre ps, ∃ q ∈ ps, y ∈ pathNames b pre q.name q.value := by
  induction ps with
  | nil => intro y hy; simp [pathNames.go] at hy
  | cons p rest ih =>
    intro y hy
    rw [pathNames.go, List.mem_append] at hy
    rcases hy with h | h
    · exact ⟨p, List.mem_cons_self _ _, h⟩
    · obtain ⟨q, hq, hy2⟩ := ih y h
      exact ⟨q, List.mem_cons_of_mem _ hq, hy2⟩

theorem wellFormed_go_cons (p : Property (Value fm)) (rest : List (Property (Value fm)))
    (h : wellFormedNames.go (p :: rest) = true) :
    goodName p.name = true ∧ (∀ q ∈ rest, q.name ≠ p.name) ∧
      wellFormedNames p.value = true ∧ wellFormedNames.go rest = true := by
  rw [wellFormedNames.go] at h
  simp only [Bool.and_eq_true, Bool.not_eq_true', List.any_eq_false, beq_iff_eq] at h
  exact ⟨h.1.1.1, fun q hq => h.1.1.2 q hq, h.1.2, h.2⟩

theorem wellFormed_go_mem (ps : List (Property (Value fm)))
    (h : wellFormedNames.go ps = true) : ∀ q ∈ ps, goodName q.name = true := by
  induction ps with
  | nil => intro q hq; cases hq
  | cons p rest ih =>
    intro q hq
    obtain ⟨h1, _, _, h4⟩ := wellFormed_go_cons p rest h
    rcases List.mem_cons.mp hq with e | e
    · rw [e]; exact h1
    · exact ih h4 q e


mutual
theorem pathNames_nodup (b : Bool) (pre : List Char) (name : String) (v : Value fm)
    (h : wellFormedNames v = true) : (pathNames b pre name v).Nodup := by
  cases v with
  | bag ps =>
    cases b with
    | false => simp [pathNames]
    | true =>
      simp only [pathNames, if_true]
      exact pathNames_go_nodup true _ ps (by simpa [wellFormedNames] using h)
  | config ps =>
    cases b with
    | true => simp [pathNames]
    | false =>
      simp only [pathNames, Bool.false_eq_true, if_false]
      exact pathNames_go_nodup false _ ps (by simpa [wellFormedNames] using h)
  | other t => simp [pathNames]
  | _ => simp [pathNames]
theorem pathNames_go_nodup (b : Bool) (pre : List Char) (ps : List (Property (Value fm)))
    (h : wellFormedNames.go ps = true) : (pathNames.go b pre ps).Nodup := by
  cases ps with
  | nil => simp [pathNames.go]
  | cons p rest =>
    obtain ⟨h1, h2, h3, h4⟩ := wellFormed_go_cons p rest h
    rw [pathNames.go]
    refine List.Nodup.append (pathNames_nodup b pre p.name p.value h3)
      (pathNames_go_nodup b pre rest h4) ?_
    intro x hx hy
    obtain ⟨t1, hx1, hf1⟩ := pathNames_form b pre p.name p.value x hx
    obtain ⟨q, hq, hy2⟩ := pathNames_go_mem b pre rest x hy
    obtain ⟨t2, hx2, hf2⟩ := pathNames_form b pre q.name q.value x hy2
    have heq : p.name.data ++ t1 = q.name.data ++ t2 :=
      List.append_cancel_left (hx1.symm.trans hx2)
    have hseg := congrArg firstSegment heq
    rw [firstSegment_of_form p.name h1 t1 hf1,
      firstSegment_of_form q.name (wellFormed_go_mem rest h4 q hq) t2 hf2] at hseg
    exact h2 q hq (String.ext hseg).symm
end


theorem isEmpty_false_of_data (s : String) (h : s.data ≠ []) : s.isEmpty = false := by
  cases he : s.isEmpty with
  | false => rfl
  | true =>
    have := (String.isEmpty_iff s).mp he
    rw [this] at h
    exact absurd rfl h

mutual
theorem leafEntries_names (pre name : String) (v : Value fm) (hn : goodName name = true)
    (h : wellFormedNames v = true) :
    (leafEntries pre name v).map (fun e => e.name.data) = pathNames false pre.data name v := by
  cases v with
  | config ps =>
    have hne := isEmpty_false_of_data name (goodName_facts name hn).2.2
    simp only [leafEntries, hne, Bool.false_eq_true, if_false, pathNames]
    rw [leafEntries_go_names_eq (pre ++ (name ++ "__")) ps (by simpa [wellFormedNames] using h)]
    simp [String.data_append]
  | bag ps => simp [leafEntries, pathNames]
  | other t => simp [leafEntries, pathNames]
  | bool x => simp [leafEntries, pathNames, WireEntry.name, String.data_append]
  | int x => simp [leafEntries, pathNames, WireEntry.name, String.data_append]
  | uint x => simp [leafEntries, pathNames, WireEntry.name, String.data_append]
  | str x => simp [leafEntries, pathNames, WireEntry.name, String.data_append]
  | double x => simp [leafEntries, pathNames, WireEntry.name, String.data_append]
  | float x => simp [leafEntries, pathNames, WireEntry.name, String.data_append]
theorem leafEntries_go_names_eq (pre : String) (ps : List (Property (Value fm)))
    (h : wellFormedNames.go ps = true) :
    (leafEntries.go pre ps).map (fun e => e.name.data) = pathNames.go false pre.data ps := by
  cases ps with
  | nil => simp [leafEntries.go, pathNames.go]
  | cons p rest =>
    obtain ⟨h1, _, h3, h4⟩ := wellFormed_go_cons p rest h
    rw [leafEntries.go, pathNames.go, List.map_append,
      leafEntries_names pre p.name p.value h1 h3, leafEntries_go_names_eq pre rest h4]
end

theorem leafEntries_names_nodup (pre : String) (B : Bag fm)
    (h : wellFormedNames (.config B) = true) :
    ((leafEntries.go pre B).map (fun e => e.name)).Nodup := by
  have hgo : wellFormedNames.go B = true := by simpa [wellFormedNames] using h
  have hn := pathNames_go_nodup false pre.data B hgo
  rw [← leafEntries_go_names_eq pre B hgo] at hn
  have : (leafEntries.go pre B).map (fun e => e.name.data)
      = ((leafEntries.go pre B).map (fun e => e.name)).map String.data := by
    simp [List.map_map, Function.comp]
  rw [this] at hn
  exact List.Nodup.of_map _ hn


theorem set_addParam_perm (p : ParamDescription) :
    ∀ (l : List Group) (k : Nat) (g : Group), l[k]? = some g →
      List.Perm ((l.set k (addParam p g)).flatMap (fun g => g.parameters))
        (l.flatMap (fun g => g.parameters) ++ [p]) := by
  intro l
  induction l with
  | nil => intro k g h; simp at h
  | cons x xs ih =>
    intro k g h
    cases k with
    | zero =>
      simp only [List.getElem?_cons_zero, Option.some.injEq] at h
      subst h
      simp only [List.set_cons_zero, List.flatMap_cons, addParam, List.append_assoc]
      exact List.Perm.append_left _ List.perm_append_comm
    | succ k =>
      simp only [List.getElem?_cons_succ] at h
      simp only [List.set_cons_succ, List.flatMap_cons, List.append_assoc]
      exact List.Perm.append_left _ (ih k g h)

theorem update_paramNames (cd cd1 : GroupVec) (group : GroupRef) (p : ParamDescription)
    (h : cd.update group (addParam p) = some cd1) :
    List.Perm (paramNames cd1) (paramNames cd ++ [p.name.data]) := by
  unfold GroupVec.update at h
  cases hd : cd.deref group with
  | none => rw [hd] at h; cases h
  | some g =>
    rw [hd] at h
    simp only [Option.some.injEq] at h
    subst h
    unfold GroupVec.deref at hd
    split at hd
    · have := (set_addParam_perm p cd.items group.index g hd).map (fun q => q.name.data)
      simpa [paramNames] using this
    · cases hd

theorem push_back_paramNames (cd : GroupVec) (name type : String) (parent id : Int) :
    paramNames (cd.push_back ⟨name, type, parent, id, []⟩) = paramNames cd := by
  unfold GroupVec.push_back paramNames
  split <;> simp

theorem pathNames_of_primOf (pre : List Char) (name : String) (v : Value fm) (T : Prim)
    (h : v.primOf = some T) : pathNames true pre name v = [pre ++ name.data] := by
  cases v <;> simp_all [Value.primOf, pathNames]

theorem pathNames_of_unsupported (pre : List Char) (name : String) (v : Value fm)
    (h : v.primOf = none) (hb : v.isBag = false) : pathNames true pre name v = [] := by
  cases v <;> simp_all [Value.primOf, pathNames, Value.isBag]

mutual
theorem build_paramNames_value (v : Value fm) (pre nm : String) (cd : GroupVec)
    (t : Targets fm) (name type : String) (parent id : Int) (r : GroupVec × Targets fm)
    (hb : v.isBag = true)
    (h : getGroupDescription v ((pre ++ nm) ++ "__") cd t name type parent id = some r) :
    List.Perm (paramNames r.1) (paramNames cd ++ pathNames true pre.data nm v) := by
  cases v with
  | bag ps =>
    simp only [getGroupDescription] at h
    have := build_paramNames_loop ps _ _ _ _ _ r h
    rw [push_back_paramNames] at this
    simpa [pathNames, String.data_append] using this
  | _ => simp [Value.isBag] at hb
theorem build_paramNames_loop (ps : List (Property (Value fm))) (pre : String)
    (cd : GroupVec) (t : Targets fm) (group : GroupRef) (id : Int)
    (r : GroupVec × Targets fm)
    (h : getGroupDescription.loop ps pre cd t group id = some r) :
    List.Perm (paramNames r.1) (paramNames cd ++ pathNames.go true pre.data ps) := by
  cases ps with
  | nil =>
    simp only [getGroupDescription.loop, Option.some.injEq] at h
    subst h
    simp [pathNames.go]
  | cons i rest =>
    rw [loop_cons] at h
    rw [pathNames.go]
    cases hT : i.value.primOf with
    | some T =>
      rw [hT] at h
      simp only at h
      cases hu : cd.update group (addParam ⟨pre ++ i.name, getType T, i.description⟩) with
      | none => rw [hu] at h; cases h
      | some cd1 =>
        rw [hu] at h
        have h1 := build_paramNames_loop rest pre cd1 _ group id r h
        have h2 := update_paramNames cd cd1 group _ hu
        rw [pathNames_of_primOf pre.data i.name i.value T hT]
        simp only [String.data_append] at h2
        refine h1.trans ?_
        rw [← List.append_assoc]
        exact List.Perm.append_right _ h2
    | none =>
      rw [hT] at h
      simp only at h
      cases hb : i.value.isBag with
      | false =>
        rw [hb] at h
        rw [pathNames_of_unsupported pre.data i.name i.value hT hb, List.nil_append]
        exact build_paramNames_loop rest pre cd t group id r h
      | true =>
        rw [hb] at h
        simp only [if_true] at h
        cases hg : cd.deref group with
        | none => rw [hg] at h; cases h
        | some g =>
          rw [hg] at h
          simp only at h
          cases hs : getGroupDescription i.value ((pre ++ i.name) ++ "__") cd
              (.same (subConfig (ensureSub (ensureSub (ensureSub t.dflt i) i) i) i.name))
              i.name "" g.id (id + 1) with
          | none => rw [hs] at h; cases h
          | some rs =>
            rw [hs] at h
            obtain ⟨cd2, tsub⟩ := rs
            have h1 := build_paramNames_loop rest pre cd2 _ group (id + 1) r h
            have h2 := build_paramNames_value i.value pre i.name cd _ i.name "" g.id (id + 1)
              (cd2, tsub) hb hs
            refine h1.trans ?_
            rw [← List.append_assoc]
            exact List.Perm.append_right _ h2
end


/-- C15: mangled names are injective on well-formed bags. For a bag in which, at every
depth, property names are unique within their bag, non-empty, free of `__` and neither begin
nor end with `_`: the entries the encoder appends (one per leaf path) carry pairwise distinct
names, for every prefix, and the parameters of a schema build that returns carry pairwise
distinct names. Without the underscore conditions names collide: encoding `collidingConfigs`
emits `a___b` twice, and the build of `collidingBags` names two parameters
`p__q__r__s__a___b`. -/
theorem mangled_names_injective (fm : FloatModel) (B : Bag fm)
    (hwf : wellFormedNames (.config B) = true) :
    (∀ (pre : String) (msg : Config fm),
      toMessage B pre msg = msg.appendEntries (leafEntries.go pre B) ∧
        ((leafEntries.go pre B).map (fun e => e.name)).Nodup) ∧
    (∀ r, freshBuild B = some r →
      ((r.1.items.flatMap (fun g => g.parameters)).map (fun p => p.name)).Nodup) ∧
    (toMessage collidingConfigs "" (Config.empty intFloats)).ints.map (fun e => e.name)
      = ["a___b", "a___b"] ∧
    (freshBuild collidingBags).map
        (fun r => (r.1.items.flatMap (fun g => g.parameters)).map (fun p => p.name))
      = some ["p__q__r__s__a___b", "p__q__r__s__a___b"] := by
  have hgo : wellFormedNames.go B = true := by simpa [wellFormedNames] using hwf
  refine ⟨fun pre msg => ⟨toMessage_entries B pre msg, leafEntries_names_nodup pre B hwf⟩,
    ?_, by decide, by decide!⟩
  intro r hr
  unfold freshBuild at hr
  simp only [getGroupDescription] at hr
  have hperm := build_paramNames_loop B "" _ _ _ _ r hr
  rw [push_back_paramNames] at hperm
  have hn : (paramNames r.1).Nodup := by
    rw [hperm.nodup_iff]
    simpa [paramNames, GroupVec.new] using pathNames_go_nodup true [] B hgo
  have hmap : paramNames r.1
      = ((r.1.items.flatMap (fun g => g.parameters)).map (fun p => p.name)).map String.data := by
    simp [paramNames, List.map_map, Function.comp]
  rw [hmap] at hn
  exact List.Nodup.of_map _ hn

/-- C15, instance: the entries encoded for `wellFormedSample` (`a`, `g__a`, `g__b`) have
pairwise distinct names. -/
theorem mangled_names_injective_witness :
    ((leafEntries.go "" wellFormedSample).map (fun e => e.name)).Nodup ∧
      toMessage wellFormedSample "" (Config.empty intFloats)
        = (Config.empty intFloats).appendEntries (leafEntries.go "" wellFormedSample) :=
  ⟨((mangled_names_injective intFloats wellFormedSample (by decide)).1 ""
      (Config.empty intFloats)).2,
    ((mangled_names_injective intFloats wellFormedSample (by decide)).1 ""
      (Config.empty intFloats)).1⟩

end RttDynamicReconfigure
